import Mathlib

/-! Sudoku solver (`sudoku.cpp`): shallow embedding and verification.

A board is the `std::string spots` of `sudoku_t`, modelled as a `List Char`.
The functions `hasDupes`, `valid`, `solution`, `succ` and `dfs` are translated
from the source; loops become structural recursions that thread the loop
variables explicitly.
-/

namespace Sudoku

/-! ## Data model -/

/-- The struct `sudoku_t`: the 81 cells in row-major order and the field
`next_spot`, which no function of the program ever reads or writes. -/
structure sudoku_t where
  spots : List Char
  next_spot : Nat
deriving DecidableEq, Repr

/-- The template struct `state_t<T>`: a state and the flag telling whether it
is a solution. -/
structure state_t (T : Type) where
  state : T
  valid : Bool
deriving DecidableEq, Repr

/-! ## String primitives -/

/-- Reading `spots[i]`: the character at offset `i`; an offset at or past the
end reads as the terminating NUL of the string. -/
def charAt (spots : List Char) (i : Nat) : Char :=
  spots.getD i (Char.ofNat 0)

/-- The call `a.find(c)` of `std::string`: the offset of the first occurrence
of `c`, where `none` stands for `npos`. -/
def find : List Char → Char → Option Nat
  | [], _ => none
  | x :: xs, c => if x = c then some 0 else (find xs c).map (· + 1)

/-- The call `a.rfind(c)` of `std::string`: the offset of the last occurrence
of `c`, where `none` stands for `npos`. -/
def rfind : List Char → Char → Option Nat
  | [], _ => none
  | x :: xs, c =>
    match rfind xs c with
    | some j => some (j + 1)
    | none => if x = c then some 0 else none

/-- The expression `'0' + i` stored into a `char`. -/
def digitChar (i : Nat) : Char :=
  Char.ofNat ('0'.toNat + i)

/-! ## `hasDupes` -/

/-- The loop of `hasDupes`: `n` iterations are left and `count` is the digit
tested next. -/
def hasDupesLoop (a : List Char) : Nat → Nat → Bool
  | 0, _ => false
  | n + 1, count =>
    let test := digitChar count
    if find a test ≠ rfind a test then true
    else hasDupesLoop a n (count + 1)

/-- Function `hasDupes`: does one of the digits `'1'..'9'` sit at two
different offsets of `a`? -/
def hasDupes (a : List Char) : Bool :=
  hasDupesLoop a 9 1

/-! ## `valid` -/

/-- The inner loop of the row and column passes of `valid`: `n` times, push
`spots[current]` onto `temp` and advance `current` by `step`. -/
def cells (spots : List Char) (step : Nat) : Nat → Nat → List Char
  | 0, _ => []
  | n + 1, current => charAt spots current :: cells spots step n (current + step)

/-- The inner loop of the block pass of `valid`: `n` times, push the three
cells at `current`, `current+1`, `current+2` and advance `current` by 9. -/
def blockCells (spots : List Char) : Nat → Nat → List Char
  | 0, _ => []
  | n + 1, current =>
    charAt spots current :: charAt spots (current + 1) :: charAt spots (current + 2)
      :: blockCells spots n (current + 9)

/-- The first offset of block `h`, as `valid` computes it. -/
def blockStart (h : Nat) : Nat :=
  if h ≥ 3 ∧ h < 6 then 3 * h + 18
  else if h ≥ 6 then 3 * h + 36
  else 3 * h

/-- The row pass of `valid`: `n` rows are left, `current` runs on from row to
row. -/
def rowsPass (spots : List Char) : Nat → Nat → Bool
  | 0, _ => true
  | n + 1, current =>
    if hasDupes (cells spots 1 9 current) = true then false
    else rowsPass spots n (current + 9)

/-- The column pass of `valid`: `n` columns are left, `h` is the next one. -/
def colsPass (spots : List Char) : Nat → Nat → Bool
  | 0, _ => true
  | n + 1, h =>
    if hasDupes (cells spots 9 9 h) = true then false
    else colsPass spots n (h + 1)

/-- The block pass of `valid`: `n` blocks are left, `h` is the next one. -/
def blocksPass (spots : List Char) : Nat → Nat → Bool
  | 0, _ => true
  | n + 1, h =>
    if hasDupes (blockCells spots 3 (blockStart h)) = true then false
    else blocksPass spots n (h + 1)

/-- Function `valid`: no row, column or block has a number violation. -/
def valid (board : sudoku_t) : Bool :=
  if rowsPass board.spots 9 0 = false then false
  else if colsPass board.spots 9 0 = false then false
  else blocksPass board.spots 9 0

/-! ## `solution` -/

/-- The loop of `solution`: is there a `'.'` among the cells? -/
def hasBlank : List Char → Bool
  | [] => false
  | c :: cs => if c = '.' then true else hasBlank cs

/-- Function `solution`: no `'.'` is left and the board is valid. -/
def solution (board : sudoku_t) : Bool :=
  if hasBlank board.spots = true then false
  else valid board

/-! ## `succ` -/

/-- The first loop of `succ`: the offset of the first `'.'` at or after
offset `i` (the list is the rest of the string from `i` on), or the initial
value 99 of `blank` when there is none. -/
def findBlank : List Char → Nat → Nat
  | [], _ => 99
  | c :: cs, i => if c = '.' then i else findBlank cs (i + 1)

/-- One iteration of the second loop of `succ`: copy the board, write the
digit `i` at `blank`, and push the copy when it is valid. -/
def succStep (board : sudoku_t) (blank : Nat) (ret : List sudoku_t) (i : Nat) :
    List sudoku_t :=
  let temp : sudoku_t := { board with spots := board.spots.set blank (digitChar i) }
  if valid temp = true then ret ++ [temp] else ret

/-- Function `succ`: all valid boards obtained by writing a digit into the
first blank. -/
def succ (board : sudoku_t) : List sudoku_t :=
  let blank := findBlank board.spots 0
  if blank = 99 then []
  else (List.range' 1 9).foldl (succStep board blank) []

/-! ## Specification-side definitions -/

/-- The digits a cell can hold, in ascending order. -/
def digits : List Char := ['1', '2', '3', '4', '5', '6', '7', '8', '9']

/-- The offsets of row `r`: `9r .. 9r+8`. -/
def rowOffsets (r : Nat) : List Nat :=
  (List.range 9).map (fun k => 9 * r + k)

/-- The offsets of column `c`: `c, c+9, .., c+72`. -/
def colOffsets (c : Nat) : List Nat :=
  (List.range 9).map (fun k => c + 9 * k)

/-- The offsets of block `b`: the 3x3 sub-grid anchored at row `3*(b/3)`,
column `3*(b%3)`. -/
def blockOffsets (b : Nat) : List Nat :=
  (List.range 3).flatMap (fun i => (List.range 3).map (fun j =>
    9 * (3 * (b / 3) + i) + 3 * (b % 3) + j))

/-- The 27 groups of a board: 9 rows, 9 columns, 9 blocks. -/
def groups : List (List Nat) :=
  (List.range 9).map rowOffsets ++ (List.range 9).map colOffsets
    ++ (List.range 9).map blockOffsets

/-- The characters a board holds at a list of offsets. -/
def readAt (spots : List Char) (offs : List Nat) : List Char :=
  offs.map (charAt spots)

/-- No digit `'1'..'9'` occurs more than once at the offsets `offs`. -/
def noRepeat (spots : List Char) (offs : List Nat) : Prop :=
  ∀ d ∈ digits, (readAt spots offs).count d ≤ 1

instance (spots : List Char) (offs : List Nat) : Decidable (noRepeat spots offs) := by
  unfold noRepeat; infer_instance

/-- The reference definition of validity: no digit repeats in any row, any
column or any block. -/
def validRef (spots : List Char) : Prop :=
  (∀ r < 9, noRepeat spots (rowOffsets r)) ∧ (∀ c < 9, noRepeat spots (colOffsets c)) ∧
    (∀ b < 9, noRepeat spots (blockOffsets b))

instance (spots : List Char) : Decidable (validRef spots) := by
  unfold validRef; infer_instance

/-- Board `s` keeps every non-blank cell of board `b`. -/
def Keeps (b s : List Char) : Prop :=
  ∀ i, charAt b i ≠ '.' → charAt s i = charAt b i

/-- The number of blank cells. -/
def blanks (spots : List Char) : Nat :=
  spots.count '.'

/-- Board `board` with the cell at offset `p` set to the digit `i`. -/
def fill (board : sudoku_t) (p i : Nat) : sudoku_t :=
  { board with spots := board.spots.set p (digitChar i) }

/-- The result `bad` of `dfs`: the spots are the empty string and the flag is
false (the field `next_spot` is left as it is by the source; nothing reads it). -/
def bad : state_t sudoku_t :=
  { state := { spots := [], next_spot := 0 }, valid := false }

/-- The loop of `dfs` over the successor states: the first result with
`valid` set, or `bad` when the loop runs to its end. -/
def firstValid {α : Type} (f : α → state_t sudoku_t) : List α → state_t sudoku_t
  | [] => bad
  | o :: rest =>
    let possible := f o
    if possible.valid = true then possible else firstValid f rest

/-- String `s` is a completion of board `b`: the same length, the same
character wherever `b` is not blank, and a digit wherever `b` is blank. -/
def Completes (b s : List Char) : Prop :=
  s.length = b.length ∧ ∀ i < b.length,
    (charAt b i ≠ '.' → charAt s i = charAt b i) ∧ (charAt b i = '.' → charAt s i ∈ digits)

instance (b s : List Char) : Decidable (Completes b s) := by
  unfold Completes; infer_instance

/-- The body of `dfs`, with the call to `succ` and the recursive call taken as
the parameters `succF` and `recF`. -/
def dfsBody (succF : sudoku_t → List sudoku_t) (recF : sudoku_t → state_t sudoku_t)
    (state : sudoku_t) : state_t sudoku_t :=
  if solution state = true then { state := state, valid := true }
  else
    let options := succF state
    if options.length = 0 then bad
    else firstValid recF options

/-- Board `board` with the cell at offset `p` set to the character `d`. -/
def setCell (board : sudoku_t) (p : Nat) (d : Char) : sudoku_t :=
  { board with spots := board.spots.set p d }

/-- Every digit `'1'..'9'` occurs exactly once at the offsets `offs`. -/
def eachOnce (spots : List Char) (offs : List Nat) : Prop :=
  ∀ d ∈ digits, (readAt spots offs).count d = 1

instance (spots : List Char) (offs : List Nat) : Decidable (eachOnce spots offs) := by
  unfold eachOnce; infer_instance

/-- A solved grid. -/
def solvedBoard : sudoku_t :=
  { spots := "534678912672195348198342567859761423426853791713924856961537284287419635345286179".toList,
    next_spot := 0 }

/-- The solved grid with its last cell blanked. -/
def oneBlankBoard : sudoku_t :=
  { spots := "53467891267219534819834256785976142342685379171392485696153728428741963534528617.".toList,
    next_spot := 0 }

/-- A board with two 5s in its first row and blanks elsewhere. -/
def rowConflictBoard : sudoku_t :=
  { spots := "55...............................................................................".toList,
    next_spot := 0 }

/-- The rows, the columns and the blocks: three ways to cut the 81 offsets
into nine groups. -/
def partitions : List (List (List Nat)) :=
  [(List.range 9).map rowOffsets, (List.range 9).map colOffsets,
    (List.range 9).map blockOffsets]

/-- The loop of `dfs` when the recursive call is given a bounded depth: `none`
means the depth ran out. -/
def firstValidDepth (f : sudoku_t → Option (state_t sudoku_t)) :
    List sudoku_t → Option (state_t sudoku_t)
  | [] => some bad
  | o :: rest =>
    match f o with
    | none => none
    | some possible => if possible.valid = true then some possible else firstValidDepth f rest

/-- Function `dfs` run with at most `depth` nested calls (the call on `state`
itself counts as one): `none` means that a deeper call would be needed. -/
def dfsDepth : Nat → sudoku_t → Option (state_t sudoku_t)
  | 0, _ => none
  | depth + 1, state =>
    if solution state = true then some { state := state, valid := true }
    else
      let options := succ state
      if options.length = 0 then some bad
      else firstValidDepth (dfsDepth depth) options

/-- A grid without blanks that is not valid: the solved grid with its second
cell overwritten by the digit of the first. -/
def fullInvalidBoard : sudoku_t :=
  { spots := "554678912672195348198342567859761423426853791713924856961537284287419635345286179".toList,
    next_spot := 0 }

/-- String `s` comes before or equals string `t` in the lexicographic order,
comparing cell by cell in row-major order. -/
def lexLe (s t : List Char) : Prop :=
  s = t ∨ ∃ i, (∀ j < i, charAt s j = charAt t j) ∧ charAt s i < charAt t i

/-- The offsets that the inner loop `cells` reads, in order. -/
def cellsReads (step : Nat) : Nat → Nat → List Nat
  | 0, _ => []
  | n + 1, current => current :: cellsReads step n (current + step)

/-- The offsets that the inner loop `blockCells` reads, in order. -/
def blockCellsReads : Nat → Nat → List Nat
  | 0, _ => []
  | n + 1, current =>
    current :: (current + 1) :: (current + 2) :: blockCellsReads n (current + 9)

/-- The offsets that the row pass of `valid` reads when it runs to its end. -/
def rowsReads : Nat → Nat → List Nat
  | 0, _ => []
  | n + 1, current => cellsReads 1 9 current ++ rowsReads n (current + 9)

/-- The offsets that the column pass of `valid` reads when it runs to its end. -/
def colsReads : Nat → Nat → List Nat
  | 0, _ => []
  | n + 1, h => cellsReads 9 9 h ++ colsReads n (h + 1)

/-- The offsets that the block pass of `valid` reads when it runs to its end. -/
def blocksReads : Nat → Nat → List Nat
  | 0, _ => []
  | n + 1, h => blockCellsReads 3 (blockStart h) ++ blocksReads n (h + 1)

/-- All offsets that `valid` reads when no pass returns early. -/
def validReads : List Nat :=
  rowsReads 9 0 ++ colsReads 9 0 ++ blocksReads 9 0

/-- The board of eighty-one `'0'` characters. -/
def zeroBoard : sudoku_t :=
  { spots := List.replicate 81 '0', next_spot := 0 }

/-! ## Termination of `dfs` -/

theorem charAt_cons_zero (x : Char) (xs : List Char) : charAt (x :: xs) 0 = x := rfl

theorem charAt_cons_succ (x : Char) (xs : List Char) (k : Nat) :
    charAt (x :: xs) (k + 1) = charAt xs k := rfl

theorem charAt_set (l : List Char) (p : Nat) (c : Char) (i : Nat) :
    charAt (l.set p c) i = if i = p ∧ p < l.length then c else charAt l i := by
  induction l generalizing p i with
  | nil => simp [charAt]
  | cons x xs ih =>
    cases p with
    | zero =>
      cases i with
      | zero => simp [charAt]
      | succ k => simp [charAt]
    | succ q =>
      cases i with
      | zero => simp [charAt]
      | succ k =>
        simp only [List.set_cons_succ, charAt_cons_succ, ih, List.length_cons]
        simp

theorem hasBlank_iff (l : List Char) : hasBlank l = true ↔ '.' ∈ l := by
  induction l with
  | nil => simp [hasBlank]
  | cons x xs ih =>
    by_cases h : x = '.'
    · simp [hasBlank, h]
    · have h2 : ¬ '.' = x := fun e => h e.symm
      simp [hasBlank, h, h2, ih]

theorem findBlank_of_not_hasBlank (l : List Char) (i : Nat) (h : hasBlank l = false) :
    findBlank l i = 99 := by
  induction l generalizing i with
  | nil => rfl
  | cons x xs ih =>
    by_cases hx : x = '.'
    · simp [hasBlank, hx] at h
    · simp only [hasBlank, hx, if_false] at h
      simp [findBlank, hx, ih _ h]

theorem findBlank_of_hasBlank (l : List Char) (i : Nat) (h : hasBlank l = true) :
    ∃ k, findBlank l i = i + k ∧ k < l.length ∧ charAt l k = '.' ∧
      ∀ j < k, charAt l j ≠ '.' := by
  induction l generalizing i with
  | nil => simp [hasBlank] at h
  | cons x xs ih =>
    by_cases hx : x = '.'
    · exact ⟨0, by simp [findBlank, hx], by simp, by simp [charAt_cons_zero, hx], by simp⟩
    · simp only [hasBlank, hx, if_false] at h
      obtain ⟨k, hk1, hk2, hk3, hk4⟩ := ih (i + 1) h
      refine ⟨k + 1, ?_, by simpa using hk2, by simpa [charAt_cons_succ] using hk3, ?_⟩
      · simp only [findBlank, hx, if_false, hk1]; omega
      · intro j hj
        cases j with
        | zero => simpa [charAt_cons_zero] using hx
        | succ j => simpa [charAt_cons_succ] using hk4 j (by omega)

theorem count_set_blank (l : List Char) (p : Nat) (c : Char) (hp : p < l.length)
    (hb : charAt l p = '.') (hc : c ≠ '.') : blanks (l.set p c) + 1 = blanks l := by
  induction l generalizing p with
  | nil => simp at hp
  | cons x xs ih =>
    cases p with
    | zero =>
      have hx : x = '.' := by simpa [charAt_cons_zero] using hb
      simp [blanks, List.count_cons, hx, hc]
    | succ q =>
      have := ih q (by simpa using hp) (by simpa [charAt_cons_succ] using hb)
      simp only [blanks, List.set_cons_succ, List.count_cons] at this ⊢
      omega

theorem foldl_succStep (board : sudoku_t) (blank : Nat) (l : List Nat)
    (ret : List sudoku_t) :
    l.foldl (succStep board blank) ret
      = ret ++ (l.map (fill board blank)).filter (fun s => valid s) := by
  induction l generalizing ret with
  | nil => simp
  | cons i rest ih =>
    rw [List.foldl_cons, ih]
    by_cases hv : valid (fill board blank i) = true
    · have : succStep board blank ret i = ret ++ [fill board blank i] := by
        unfold succStep; exact if_pos hv
      simp [this, List.filter_cons, hv]
    · have : succStep board blank ret i = ret := by
        unfold succStep; exact if_neg hv
      simp [this, List.filter_cons, hv]

theorem succ_eq (board : sudoku_t) :
    succ board = if findBlank board.spots 0 = 99 then []
      else ((List.range' 1 9).map (fill board (findBlank board.spots 0))).filter
        (fun s => valid s) := by
  unfold succ
  simp only [foldl_succStep, List.nil_append]

theorem digitChar_ne_dot (i : Nat) (h1 : 1 ≤ i) (h9 : i ≤ 9) : digitChar i ≠ '.' := by
  interval_cases i <;> decide

theorem digitChar_mem_digits (i : Nat) (h1 : 1 ≤ i) (h9 : i ≤ 9) : digitChar i ∈ digits := by
  interval_cases i <;> decide

theorem mem_succ {board s : sudoku_t} (h : s ∈ succ board) :
    hasBlank board.spots = true ∧ findBlank board.spots 0 ≠ 99 ∧
      ∃ i, 1 ≤ i ∧ i ≤ 9 ∧ s = fill board (findBlank board.spots 0) i ∧ valid s = true := by
  rw [succ_eq] at h
  by_cases h99 : findBlank board.spots 0 = 99
  · simp [h99] at h
  · rw [if_neg h99] at h
    have hb : hasBlank board.spots = true := by
      by_contra hb
      exact h99 (findBlank_of_not_hasBlank _ _ (by simpa using hb))
    obtain ⟨hm, hv⟩ := List.mem_filter.1 h
    obtain ⟨i, hi, rfl⟩ := List.mem_map.1 hm
    rw [List.mem_range'_1] at hi
    exact ⟨hb, h99, i, hi.1, by omega, rfl, by simpa using hv⟩

theorem blanks_lt_of_mem_succ {board s : sudoku_t} (h : s ∈ succ board) :
    blanks s.spots < blanks board.spots := by
  obtain ⟨hb, _, i, h1, h9, rfl, _⟩ := mem_succ h
  obtain ⟨k, hk, hlt, hdot, _⟩ := findBlank_of_hasBlank board.spots 0 hb
  have := count_set_blank board.spots k (digitChar i) hlt hdot (digitChar_ne_dot i h1 h9)
  simp only [fill, hk, Nat.zero_add]
  omega

/-- Function `dfs`, instantiated at `sudoku_t`. -/
def dfs (state : sudoku_t) : state_t sudoku_t :=
  if solution state = true then { state := state, valid := true }
  else
    let options := succ state
    if options.length = 0 then bad
    else firstValid (fun o => dfs o.1) options.attach
termination_by blanks state.spots
decreasing_by exact blanks_lt_of_mem_succ o.2

/-! ## Theorems -/

theorem find_eq_none (a : List Char) (c : Char) : find a c = none ↔ c ∉ a := by
  induction a with
  | nil => simp [find]
  | cons x xs ih =>
    by_cases h : x = c
    · simp [find, h]
    · have h2 : ¬ c = x := fun e => h e.symm
      simp [find, h, h2, ih]

theorem rfind_eq_none (a : List Char) (c : Char) : rfind a c = none ↔ c ∉ a := by
  induction a with
  | nil => simp [rfind]
  | cons x xs ih =>
    by_cases h : x = c
    · cases hr : rfind xs c <;> simp [rfind, hr, h]
    · have h2 : ¬ c = x := fun e => h e.symm
      cases hr : rfind xs c
      · simp [rfind, hr, h, h2, ← ih]
      · have : ¬ (c ∉ xs) := by rw [← ih, hr]; simp
        simp [rfind, hr, h, h2]
        simpa using this

theorem find_ne_rfind_iff (a : List Char) (c : Char) :
    find a c ≠ rfind a c ↔ 2 ≤ a.count c := by
  induction a with
  | nil => simp [find, rfind]
  | cons x xs ih =>
    by_cases h : x = c
    · subst h
      cases hr : rfind xs x with
      | none =>
        have : x ∉ xs := (rfind_eq_none xs x).1 hr
        simp [find, rfind, hr, List.count_eq_zero_of_not_mem this]
      | some j =>
        have : x ∈ xs := by
          by_contra hx
          rw [(rfind_eq_none xs x).2 hx] at hr
          cases hr
        simp [find, rfind, hr]
        exact this
    · have hc : (x :: xs).count c = xs.count c := by
        simp [List.count_cons, h]
      rw [hc, ← ih]
      cases hf : find xs c <;> cases hr : rfind xs c <;> simp [find, rfind, hf, hr, h]

theorem digitChar_vals : digitChar 1 = '1' ∧ digitChar 2 = '2' ∧ digitChar 3 = '3' ∧
    digitChar 4 = '4' ∧ digitChar 5 = '5' ∧ digitChar 6 = '6' ∧ digitChar 7 = '7' ∧
    digitChar 8 = '8' ∧ digitChar 9 = '9' := by decide

theorem hasDupes_iff (a : List Char) :
    hasDupes a = true ↔ ∃ d ∈ digits, 2 ≤ a.count d := by
  obtain ⟨h1, h2, h3, h4, h5, h6, h7, h8, h9⟩ := digitChar_vals
  simp only [hasDupes, hasDupesLoop, h1, h2, h3, h4, h5, h6, h7, h8, h9, digits,
    find_ne_rfind_iff, List.mem_cons, List.mem_singleton, exists_eq_or_imp,
    exists_eq_left]
  simp

theorem hasDupes_eq_false_iff (a : List Char) :
    hasDupes a = false ↔ ∀ d ∈ digits, a.count d ≤ 1 := by
  rw [← Bool.not_eq_true, hasDupes_iff]
  push_neg
  constructor
  · intro h d hd; have := h d hd; omega
  · intro h d hd; have := h d hd; omega

theorem forall_lt_nine (P : Nat → Prop) :
    (∀ r < 9, P r) ↔ P 0 ∧ P 1 ∧ P 2 ∧ P 3 ∧ P 4 ∧ P 5 ∧ P 6 ∧ P 7 ∧ P 8 := by
  constructor
  · intro h
    exact ⟨h 0 (by omega), h 1 (by omega), h 2 (by omega), h 3 (by omega), h 4 (by omega),
      h 5 (by omega), h 6 (by omega), h 7 (by omega), h 8 (by omega)⟩
  · rintro ⟨h0, h1, h2, h3, h4, h5, h6, h7, h8⟩ r hr
    interval_cases r <;> assumption

theorem rowsPass_iff (spots : List Char) :
    rowsPass spots 9 0 = true ↔ ∀ r < 9, noRepeat spots (rowOffsets r) := by
  simp only [noRepeat, ← hasDupes_eq_false_iff, forall_lt_nine]
  simp [rowsPass, cells, rowOffsets, readAt, List.range, List.range.loop]

theorem colsPass_iff (spots : List Char) :
    colsPass spots 9 0 = true ↔ ∀ c < 9, noRepeat spots (colOffsets c) := by
  simp only [noRepeat, ← hasDupes_eq_false_iff, forall_lt_nine]
  simp [colsPass, cells, colOffsets, readAt, List.range, List.range.loop]

theorem blocksPass_iff (spots : List Char) :
    blocksPass spots 9 0 = true ↔ ∀ b < 9, noRepeat spots (blockOffsets b) := by
  simp only [noRepeat, ← hasDupes_eq_false_iff, forall_lt_nine]
  simp [blocksPass, blockCells, blockStart, blockOffsets, readAt, List.range, List.range.loop]

theorem valid_iff_validRef (board : sudoku_t) :
    valid board = true ↔ validRef board.spots := by
  unfold validRef
  rw [← rowsPass_iff, ← colsPass_iff, ← blocksPass_iff]
  unfold valid
  cases rowsPass board.spots 9 0 <;> cases colsPass board.spots 9 0 <;> simp

theorem forall_groups (P : List Nat → Prop) :
    ((∀ r < 9, P (rowOffsets r)) ∧ (∀ c < 9, P (colOffsets c)) ∧
      (∀ b < 9, P (blockOffsets b))) ↔ ∀ offs ∈ groups, P offs := by
  simp only [groups, List.mem_append, List.mem_map, List.mem_range]
  constructor
  · rintro ⟨h1, h2, h3⟩ offs (⟨⟨r, hr, rfl⟩ | ⟨c, hc, rfl⟩⟩ | ⟨b, hb, rfl⟩)
    · exact h1 r hr
    · exact h2 c hc
    · exact h3 b hb
  · intro h
    exact ⟨fun r hr => h _ (Or.inl (Or.inl ⟨r, hr, rfl⟩)),
      fun c hc => h _ (Or.inl (Or.inr ⟨c, hc, rfl⟩)), fun b hb => h _ (Or.inr ⟨b, hb, rfl⟩)⟩

theorem validRef_iff_groups (spots : List Char) :
    validRef spots ↔ ∀ offs ∈ groups, noRepeat spots offs :=
  forall_groups (noRepeat spots)

theorem valid_iff_groups (board : sudoku_t) :
    valid board = true ↔ ∀ offs ∈ groups, noRepeat board.spots offs := by
  rw [valid_iff_validRef, validRef_iff_groups]

theorem dot_not_digit : '.' ∉ digits := by decide

theorem count_readAt_le {b s : List Char} (h : Keeps b s) {d : Char} (hd : d ≠ '.')
    (offs : List Nat) : (readAt b offs).count d ≤ (readAt s offs).count d := by
  induction offs with
  | nil => simp [readAt]
  | cons i rest ih =>
    simp only [readAt, List.map_cons, List.count_cons] at ih ⊢
    by_cases hi : charAt b i = d
    · have : charAt s i = d := by rw [h i (by rw [hi]; exact hd), hi]
      simp [hi, this, ih]
    · simp only [beq_iff_eq, hi, if_false]
      split <;> omega

theorem noRepeat_of_keeps {b s : List Char} (h : Keeps b s) (offs : List Nat)
    (hs : noRepeat s offs) : noRepeat b offs := by
  intro d hd
  have hne : d ≠ '.' := fun e => dot_not_digit (e ▸ hd)
  exact le_trans (count_readAt_le h hne offs) (hs d hd)

theorem valid_of_keeps {b s : sudoku_t} (h : Keeps b.spots s.spots)
    (hs : valid s = true) : valid b = true := by
  rw [valid_iff_groups] at hs ⊢
  exact fun offs ho => noRepeat_of_keeps h offs (hs offs ho)

theorem firstValid_attach (f : sudoku_t → state_t sudoku_t) (l : List sudoku_t) :
    firstValid (fun o : {x // x ∈ l} => f o.1) l.attach = firstValid f l := by
  have key : ∀ (m : List {x // x ∈ l}),
      firstValid (fun o : {x // x ∈ l} => f o.1) m = firstValid f (m.map Subtype.val) := by
    intro m
    induction m with
    | nil => rfl
    | cons o rest ih => simp only [firstValid, List.map_cons, ih]
  rw [key, List.attach_map_subtype_val]

theorem dfs_eq (state : sudoku_t) :
    dfs state = if solution state = true then { state := state, valid := true }
      else if (succ state).length = 0 then bad
      else firstValid dfs (succ state) := by
  rw [dfs]
  simp only [firstValid_attach]

theorem charAt_of_le (l : List Char) (i : Nat) (h : l.length ≤ i) :
    charAt l i = Char.ofNat 0 := by
  unfold charAt
  exact List.getD_eq_default _ _ h

theorem charAt_mem (l : List Char) (i : Nat) (h : i < l.length) : charAt l i ∈ l := by
  unfold charAt
  rw [List.getD_eq_getElem _ _ h]
  exact List.getElem_mem h

theorem charAt_ne_dot_of_not_hasBlank (l : List Char) (h : hasBlank l = false) (i : Nat) :
    charAt l i ≠ '.' := by
  by_cases hi : i < l.length
  · intro e
    have := charAt_mem l i hi
    rw [e, ← hasBlank_iff, h] at this
    cases this
  · rw [charAt_of_le l i (by omega)]; decide

theorem ext_charAt {l m : List Char} (hlen : l.length = m.length)
    (h : ∀ i < l.length, charAt l i = charAt m i) : l = m := by
  apply List.ext_getElem hlen
  intro i h1 h2
  have := h i h1
  unfold charAt at this
  rwa [List.getD_eq_getElem _ _ h1, List.getD_eq_getElem _ _ h2] at this

theorem Completes.keeps {b s : List Char} (h : Completes b s) : Keeps b s := by
  intro i hi
  by_cases hlt : i < b.length
  · exact (h.2 i hlt).1 hi
  · rw [charAt_of_le b i (by omega), charAt_of_le s i (by rw [h.1]; omega)]

theorem Completes.trans {b o r : List Char} (h1 : Completes b o) (h2 : Completes o r) :
    Completes b r := by
  refine ⟨h2.1.trans h1.1, fun i hi => ⟨fun hb => ?_, fun hb => ?_⟩⟩
  · have ho := (h1.2 i hi).1 hb
    rw [← ho]
    exact (h2.2 i (by rw [h1.1]; exact hi)).1 (by rw [ho]; exact hb)
  · have ho := (h1.2 i hi).2 hb
    have hne : charAt o i ≠ '.' := fun e => dot_not_digit (e ▸ ho)
    rw [(h2.2 i (by rw [h1.1]; exact hi)).1 hne]
    exact ho

theorem completes_self (b : List Char) (h : hasBlank b = false) : Completes b b :=
  ⟨rfl, fun i _ => ⟨fun _ => rfl, fun e => absurd e (charAt_ne_dot_of_not_hasBlank b h i)⟩⟩

theorem completes_of_fill {b r : List Char} (p i : Nat) (hp : charAt b p = '.')
    (hlt : p < b.length) (h1 : 1 ≤ i) (h9 : i ≤ 9)
    (h : Completes (b.set p (digitChar i)) r) : Completes b r := by
  obtain ⟨hlen, hall⟩ := h
  rw [List.length_set] at hlen hall
  refine ⟨hlen, fun j hj => ?_⟩
  have hj2 := hall j hj
  rw [charAt_set] at hj2
  by_cases e : j = p
  · subst e
    rw [if_pos ⟨rfl, hlt⟩] at hj2
    refine ⟨fun hb => absurd hp hb, fun _ => ?_⟩
    rw [hj2.1 (digitChar_ne_dot i h1 h9)]
    exact digitChar_mem_digits i h1 h9
  · rw [if_neg (fun c => e c.1)] at hj2
    exact hj2

theorem fill_completes {b s : List Char} (p i : Nat) (hlt : p < b.length)
    (h1 : 1 ≤ i) (h9 : i ≤ 9) (h : Completes b s) (hs : charAt s p = digitChar i) :
    Completes (b.set p (digitChar i)) s := by
  obtain ⟨hlen, hall⟩ := h
  refine ⟨by rw [List.length_set]; exact hlen, fun j hj => ?_⟩
  rw [List.length_set] at hj
  rw [charAt_set]
  by_cases e : j = p
  · subst e
    rw [if_pos ⟨rfl, hlt⟩]
    exact ⟨fun _ => hs, fun hb => absurd hb (digitChar_ne_dot i h1 h9)⟩
  · rw [if_neg (fun c => e c.1)]
    exact hall j hj

theorem firstValid_cases {α : Type} (f : α → state_t sudoku_t) (l : List α) :
    (firstValid f l = bad ∧ ∀ o ∈ l, (f o).valid = false) ∨
      ∃ o ∈ l, firstValid f l = f o ∧ (f o).valid = true := by
  induction l with
  | nil => left; exact ⟨rfl, by simp⟩
  | cons x rest ih =>
    by_cases hx : (f x).valid = true
    · right
      exact ⟨x, by simp, by simp [firstValid, hx], hx⟩
    · have hstep : firstValid f (x :: rest) = firstValid f rest := by
        simp [firstValid, hx]
      rw [hstep]
      rcases ih with ⟨hb, hall⟩ | ⟨o, ho, he, hv⟩
      · left
        refine ⟨hb, fun o ho => ?_⟩
        rcases List.mem_cons.1 ho with rfl | ho
        · simpa using hx
        · exact hall o ho
      · right
        exact ⟨o, List.mem_cons_of_mem _ ho, he, hv⟩

theorem bad_valid : bad.valid = false := rfl

theorem solution_iff (board : sudoku_t) :
    solution board = true ↔ hasBlank board.spots = false ∧ valid board = true := by
  unfold solution
  cases hasBlank board.spots <;> simp

theorem valid_congr {b s : sudoku_t} (h : b.spots = s.spots) : valid b = valid s := by
  unfold valid; rw [h]

theorem solution_congr {b s : sudoku_t} (h : b.spots = s.spots) : solution b = solution s := by
  unfold solution; rw [h, valid_congr h]

theorem dfs_of_solution {b : sudoku_t} (hs : solution b = true) :
    dfs b = { state := b, valid := true } := by
  rw [dfs_eq, if_pos hs]

theorem dfs_of_no_succ {b : sudoku_t} (hs : ¬ solution b = true) (h0 : (succ b).length = 0) :
    dfs b = bad := by
  rw [dfs_eq, if_neg hs, if_pos h0]

theorem dfs_of_succ {b : sudoku_t} (hs : ¬ solution b = true) (h0 : ¬ (succ b).length = 0) :
    dfs b = firstValid dfs (succ b) := by
  rw [dfs_eq, if_neg hs, if_neg h0]

/-- Every result of `dfs` with the flag set holds a solution that completes
the input board. -/
theorem dfs_sound (b : sudoku_t) (h : (dfs b).valid = true) :
    solution (dfs b).state = true ∧ Completes b.spots (dfs b).state.spots := by
  generalize hn : blanks b.spots = n
  induction n using Nat.strong_induction_on generalizing b with
  | _ n ih =>
    by_cases hs : solution b = true
    · rw [dfs_of_solution hs]
      exact ⟨hs, completes_self _ ((solution_iff b).1 hs).1⟩
    · by_cases h0 : (succ b).length = 0
      · rw [dfs_of_no_succ hs h0, bad_valid] at h; cases h
      · rw [dfs_of_succ hs h0] at h ⊢
        rcases firstValid_cases dfs (succ b) with ⟨hb, _⟩ | ⟨o, ho, he, hv⟩
        · rw [hb, bad_valid] at h; cases h
        · rw [he]
          have hlt := blanks_lt_of_mem_succ ho
          obtain ⟨h1, h2⟩ := ih _ (hn ▸ hlt) o hv rfl
          refine ⟨h1, ?_⟩
          obtain ⟨hb, _, i, hi1, hi9, rfl, _⟩ := mem_succ ho
          obtain ⟨k, hk, hklt, hdot, _⟩ := findBlank_of_hasBlank b.spots 0 hb
          rw [Nat.zero_add] at hk
          rw [hk] at h2 ⊢
          exact completes_of_fill k i hdot hklt hi1 hi9 h2

theorem mem_digits_iff (c : Char) : c ∈ digits ↔ ∃ i, 1 ≤ i ∧ i ≤ 9 ∧ c = digitChar i := by
  obtain ⟨h1, h2, h3, h4, h5, h6, h7, h8, h9⟩ := digitChar_vals
  constructor
  · intro h
    simp only [digits, List.mem_cons, List.mem_singleton, List.mem_nil_iff, or_false] at h
    rcases h with rfl | rfl | rfl | rfl | rfl | rfl | rfl | rfl | rfl
    · exact ⟨1, by omega, by omega, h1.symm⟩
    · exact ⟨2, by omega, by omega, h2.symm⟩
    · exact ⟨3, by omega, by omega, h3.symm⟩
    · exact ⟨4, by omega, by omega, h4.symm⟩
    · exact ⟨5, by omega, by omega, h5.symm⟩
    · exact ⟨6, by omega, by omega, h6.symm⟩
    · exact ⟨7, by omega, by omega, h7.symm⟩
    · exact ⟨8, by omega, by omega, h8.symm⟩
    · exact ⟨9, by omega, by omega, h9.symm⟩
  · rintro ⟨i, hi1, hi9, rfl⟩
    exact digitChar_mem_digits i hi1 hi9

/-- Pruning keeps every solution: when a board of at most 99 cells with a
blank has a completion `s` that is a solution, the successor that agrees with
`s` at the first blank is in `succ`. -/
theorem succ_keeps_solution (b : sudoku_t) (hlen : b.spots.length ≤ 99) (s : sudoku_t)
    (hc : Completes b.spots s.spots) (hsol : solution s = true)
    (hb : hasBlank b.spots = true) :
    ∃ o ∈ succ b, Completes o.spots s.spots := by
  obtain ⟨k, hk, hklt, hdot, _⟩ := findBlank_of_hasBlank b.spots 0 hb
  rw [Nat.zero_add] at hk
  obtain ⟨i, hi1, hi9, hi⟩ := (mem_digits_iff _).1 ((hc.2 k hklt).2 hdot)
  have hco : Completes (fill b k i).spots s.spots :=
    fill_completes k i hklt hi1 hi9 hc hi
  have hvo : valid (fill b k i) = true :=
    valid_of_keeps hco.keeps ((solution_iff s).1 hsol).2
  refine ⟨fill b k i, ?_, hco⟩
  rw [succ_eq, hk, if_neg (by omega)]
  refine List.mem_filter.2 ⟨List.mem_map.2 ⟨i, ?_, rfl⟩, by simpa using hvo⟩
  rw [List.mem_range'_1]; omega

theorem hasBlank_of_completes_ne {b s : sudoku_t} (hc : Completes b.spots s.spots)
    (hsol : solution s = true) (hs : ¬ solution b = true) : hasBlank b.spots = true := by
  by_contra hb
  have hb : hasBlank b.spots = false := by simpa using hb
  have hbs : b.spots = s.spots := by
    apply ext_charAt hc.1.symm
    intro i hi
    exact ((hc.2 i hi).1 (charAt_ne_dot_of_not_hasBlank _ hb i)).symm
  exact hs (by rw [solution_congr hbs]; exact hsol)

/-- A board of at most 99 cells that has a completion which is a solution is
solved by `dfs`. -/
theorem dfs_complete (b : sudoku_t) (hlen : b.spots.length ≤ 99) (s : sudoku_t)
    (hc : Completes b.spots s.spots) (hsol : solution s = true) : (dfs b).valid = true := by
  generalize hn : blanks b.spots = n
  induction n using Nat.strong_induction_on generalizing b with
  | _ n ih =>
    by_cases hs : solution b = true
    · rw [dfs_of_solution hs]
    · have hb := hasBlank_of_completes_ne hc hsol hs
      obtain ⟨o, hmem, hco⟩ := succ_keeps_solution b hlen s hc hsol hb
      have h0 : (succ b).length ≠ 0 := by
        intro e
        rw [List.length_eq_zero] at e
        rw [e] at hmem; cases hmem
      rw [dfs_of_succ hs h0]
      have hlt := blanks_lt_of_mem_succ hmem
      have holen : o.spots.length ≤ 99 := by
        obtain ⟨_, _, i, _, _, rfl, _⟩ := mem_succ hmem
        simpa [fill] using hlen
      have hvalid : (dfs o).valid = true := ih _ (hn ▸ hlt) o holen hco rfl
      rcases firstValid_cases dfs (succ b) with ⟨_, hall⟩ | ⟨o2, _, he, hv⟩
      · rw [hall _ hmem] at hvalid; cases hvalid
      · rw [he]; exact hv

theorem dfs_eq_dfsBody (state : sudoku_t) : dfs state = dfsBody succ dfs state := by
  rw [dfs_eq]; rfl

/-- C1. Soundness of `dfs`: on a board of 81 cells, a result with `valid` set
holds a state without any `'.'` on which `valid` and `solution` are true. -/
theorem C1_dfs_sound (b : sudoku_t) (hlen : b.spots.length = 81)
    (h : (dfs b).valid = true) :
    '.' ∉ (dfs b).state.spots ∧ valid (dfs b).state = true ∧
      solution (dfs b).state = true := by
  have hs := (dfs_sound b h).1
  have h2 := (solution_iff _).1 hs
  refine ⟨?_, h2.2, hs⟩
  rw [← hasBlank_iff, h2.1]
  simp

set_option maxRecDepth 100000 in
theorem C1_dfs_sound_witness :
    oneBlankBoard.spots.length = 81 ∧ (dfs oneBlankBoard).valid = true ∧
      '.' ∉ (dfs oneBlankBoard).state.spots ∧ valid (dfs oneBlankBoard).state = true ∧
      solution (dfs oneBlankBoard).state = true :=
  have hv : (dfs oneBlankBoard).valid = true :=
    dfs_complete oneBlankBoard (by decide) solvedBoard (by decide) (by decide)
  ⟨by decide, hv, C1_dfs_sound oneBlankBoard (by decide) hv⟩

/-- C2. Completeness of `dfs`: on a board of 81 cells, a result with `valid`
unset means that no string of 81 characters completes the board (same
character wherever the board is not blank, a digit wherever it is) and
satisfies `solution`; and pruning never loses a solution: when the board has
a blank, every such completion also completes one of the boards of `succ`. -/
theorem C2_dfs_complete (b : sudoku_t) (hlen : b.spots.length = 81) :
    ((dfs b).valid = false →
      ¬ ∃ s : sudoku_t, s.spots.length = 81 ∧ Completes b.spots s.spots ∧
        solution s = true) ∧
    (∀ s : sudoku_t, Completes b.spots s.spots → solution s = true →
      hasBlank b.spots = true → ∃ o ∈ succ b, Completes o.spots s.spots) := by
  constructor
  · rintro h ⟨s, _, hc, hsol⟩
    rw [dfs_complete b (by omega) s hc hsol] at h
    cases h
  · intro s hc hsol hb
    exact succ_keeps_solution b (by omega) s hc hsol hb

set_option maxRecDepth 100000 in
theorem C2_dfs_complete_witness :
    rowConflictBoard.spots.length = 81 ∧ (dfs rowConflictBoard).valid = false ∧
      ¬ ∃ s : sudoku_t, s.spots.length = 81 ∧ Completes rowConflictBoard.spots s.spots ∧
        solution s = true :=
  have hv : (dfs rowConflictBoard).valid = false := by
    rw [dfs_of_no_succ (by decide) (by decide)]; rfl
  ⟨by decide, hv, (C2_dfs_complete rowConflictBoard (by decide)).1 hv⟩

/-- C3. Unique-solution puzzle: when a board of 81 cells over `'1'..'9'` and
`'.'` has exactly one completion `s` that satisfies `solution`, `dfs` returns
`valid = true` and the spots `s`. -/
theorem C3_unique_solution (b : sudoku_t) (hlen : b.spots.length = 81)
    (halpha : ∀ c ∈ b.spots, c = '.' ∨ c ∈ digits) (s : List Char)
    (hc : Completes b.spots s) (hsol : solution ⟨s, b.next_spot⟩ = true)
    (huniq : ∀ t : List Char, Completes b.spots t → solution ⟨t, b.next_spot⟩ = true →
      t = s) :
    (dfs b).valid = true ∧ (dfs b).state.spots = s := by
  have hv : (dfs b).valid = true := dfs_complete b (by omega) ⟨s, b.next_spot⟩ hc hsol
  refine ⟨hv, huniq _ (dfs_sound b hv).2 ?_⟩
  rw [← (dfs_sound b hv).1]
  exact solution_congr rfl

set_option maxRecDepth 100000 in
theorem oneBlankBoard_unique (t : List Char) (hc : Completes oneBlankBoard.spots t)
    (hsol : solution ⟨t, oneBlankBoard.next_spot⟩ = true) : t = solvedBoard.spots := by
  have hlen : t.length = 81 := hc.1
  have h80 : charAt t 80 ∈ digits := (hc.2 80 (by decide)).2 (by decide)
  have hrest : ∀ i < 81, i ≠ 80 → charAt t i = charAt oneBlankBoard.spots i := by
    intro i hi hne
    have hnd : ∀ k < 81, k ≠ 80 → charAt oneBlankBoard.spots k ≠ '.' := by decide
    exact (hc.2 i hi).1 (hnd i hi hne)
  have hset : t = (oneBlankBoard.spots.set 80 (charAt t 80)) := by
    apply ext_charAt (by rw [List.length_set]; exact hlen)
    intro i hi
    rw [charAt_set]
    by_cases h : i = 80 ∧ 80 < oneBlankBoard.spots.length
    · rw [if_pos h, h.1]
    · rw [if_neg h]
      exact hrest i (by omega) (fun e => h ⟨e, by decide⟩)
  have hv : valid (setCell oneBlankBoard 80 (charAt t 80)) = true := by
    rw [← ((solution_iff _).1 hsol).2]
    exact valid_congr hset.symm
  have honly : ∀ c ∈ digits, valid (setCell oneBlankBoard 80 c) = true → c = '9' := by
    decide
  rw [hset, honly _ h80 hv]
  decide

set_option maxRecDepth 100000 in
theorem C3_unique_solution_witness :
    oneBlankBoard.spots.length = 81 ∧ (∀ c ∈ oneBlankBoard.spots, c = '.' ∨ c ∈ digits) ∧
      Completes oneBlankBoard.spots solvedBoard.spots ∧
      solution ⟨solvedBoard.spots, oneBlankBoard.next_spot⟩ = true ∧
      (∀ t : List Char, Completes oneBlankBoard.spots t →
        solution ⟨t, oneBlankBoard.next_spot⟩ = true → t = solvedBoard.spots) ∧
      (dfs oneBlankBoard).valid = true ∧
      (dfs oneBlankBoard).state.spots = solvedBoard.spots :=
  ⟨by decide, by decide, by decide, by decide, oneBlankBoard_unique,
    C3_unique_solution oneBlankBoard (by decide) (by decide) solvedBoard.spots (by decide)
      (by decide) oneBlankBoard_unique⟩

/-- C4. On a board of 81 cells `valid` is true exactly when no digit repeats
in any row, any column or any block (blanks do not count), and the first
offset of block `h` that the code computes is the anchor row `3*(h/3)`, column
`3*(h%3)` of the specification. -/
theorem C4_valid_iff_reference (b : sudoku_t) (hlen : b.spots.length = 81) :
    (valid b = true ↔ validRef b.spots) ∧
      (∀ h < 9, blockStart h = 9 * (3 * (h / 3)) + 3 * (h % 3)) ∧
      (∀ h < 9, blockCells b.spots 3 (blockStart h) = readAt b.spots (blockOffsets h)) := by
  refine ⟨valid_iff_validRef b, ?_, ?_⟩
  · intro h hh
    interval_cases h <;> rfl
  · intro h hh
    interval_cases h <;> rfl

set_option maxRecDepth 100000 in
theorem C4_valid_iff_reference_witness :
    oneBlankBoard.spots.length = 81 ∧
      ((valid oneBlankBoard = true ↔ validRef oneBlankBoard.spots) ∧
      (∀ h < 9, blockStart h = 9 * (3 * (h / 3)) + 3 * (h % 3)) ∧
      (∀ h < 9, blockCells oneBlankBoard.spots 3 (blockStart h)
        = readAt oneBlankBoard.spots (blockOffsets h))) :=
  ⟨by decide, C4_valid_iff_reference oneBlankBoard (by decide)⟩

theorem sum_counts_eq_length (g : List Char) (h : ∀ x ∈ g, x ∈ digits) :
    g.count '1' + g.count '2' + g.count '3' + g.count '4' + g.count '5' + g.count '6'
      + g.count '7' + g.count '8' + g.count '9' = g.length := by
  induction g with
  | nil => rfl
  | cons x xs ih =>
    have hx := h x (List.mem_cons_self _ _)
    have ih2 := ih (fun y hy => h y (List.mem_cons_of_mem _ hy))
    simp only [digits, List.mem_cons, List.mem_singleton, List.mem_nil_iff, or_false] at hx
    rcases hx with rfl | rfl | rfl | rfl | rfl | rfl | rfl | rfl | rfl <;>
      simp [List.count_cons] <;> omega

theorem eachOnce_of_noRepeat (g : List Char) (hlen : g.length = 9)
    (h : ∀ x ∈ g, x ∈ digits) (hno : ∀ d ∈ digits, g.count d ≤ 1) :
    ∀ d ∈ digits, g.count d = 1 := by
  have hsum := sum_counts_eq_length g h
  have h1 := hno '1' (by decide)
  have h2 := hno '2' (by decide)
  have h3 := hno '3' (by decide)
  have h4 := hno '4' (by decide)
  have h5 := hno '5' (by decide)
  have h6 := hno '6' (by decide)
  have h7 := hno '7' (by decide)
  have h8 := hno '8' (by decide)
  have h9 := hno '9' (by decide)
  intro d hd
  simp only [digits, List.mem_cons, List.mem_singleton, List.mem_nil_iff, or_false] at hd
  rcases hd with rfl | rfl | rfl | rfl | rfl | rfl | rfl | rfl | rfl <;> omega

theorem groups_shape : ∀ offs ∈ groups, offs.length = 9 ∧ ∀ i ∈ offs, i < 81 := by decide

theorem readAt_mem_digits (spots : List Char) (hlen : spots.length = 81)
    (hfull : ∀ c ∈ spots, c ∈ digits) (offs : List Nat) (ho : ∀ i ∈ offs, i < 81) :
    ∀ x ∈ readAt spots offs, x ∈ digits := by
  intro x hx
  obtain ⟨i, hi, rfl⟩ := List.mem_map.1 hx
  exact hfull _ (charAt_mem spots i (by rw [hlen]; exact ho i hi))

/-- C5. On a board of 81 cells that are all digits `'1'..'9'`, `valid` is true
exactly when every row, every column and every block holds each digit
`'1'..'9'` exactly once. -/
theorem C5_valid_full_board (b : sudoku_t) (hlen : b.spots.length = 81)
    (hfull : ∀ c ∈ b.spots, c ∈ digits) :
    valid b = true ↔ ((∀ r < 9, eachOnce b.spots (rowOffsets r)) ∧
      (∀ c < 9, eachOnce b.spots (colOffsets c)) ∧
      (∀ k < 9, eachOnce b.spots (blockOffsets k))) := by
  rw [forall_groups (eachOnce b.spots), valid_iff_groups]
  constructor
  · intro h offs ho
    have hs := groups_shape offs ho
    exact eachOnce_of_noRepeat _ (by simp [readAt, hs.1])
      (readAt_mem_digits b.spots hlen hfull offs hs.2) (h offs ho)
  · intro h offs ho d hd
    exact le_of_eq (h offs ho d hd)

set_option maxRecDepth 100000 in
theorem C5_valid_full_board_witness :
    solvedBoard.spots.length = 81 ∧ (∀ c ∈ solvedBoard.spots, c ∈ digits) ∧
      (valid solvedBoard = true ↔ ((∀ r < 9, eachOnce solvedBoard.spots (rowOffsets r)) ∧
        (∀ c < 9, eachOnce solvedBoard.spots (colOffsets c)) ∧
        (∀ k < 9, eachOnce solvedBoard.spots (blockOffsets k)))) :=
  ⟨by decide, by decide, C5_valid_full_board solvedBoard (by decide) (by decide)⟩

theorem charAt_eq_dot_lt {l : List Char} {p : Nat} (h : charAt l p = '.') : p < l.length := by
  by_contra hlt
  rw [charAt_of_le l p (by omega)] at h
  revert h; decide

theorem findBlank_eq_first (l : List Char) (p : Nat) (hp : charAt l p = '.')
    (hmin : ∀ q < p, charAt l q ≠ '.') : findBlank l 0 = p ∧ hasBlank l = true := by
  have hb : hasBlank l = true := by
    rw [hasBlank_iff, ← hp]
    exact charAt_mem l p (charAt_eq_dot_lt hp)
  obtain ⟨k, hk, _, hdot, hk4⟩ := findBlank_of_hasBlank l 0 hb
  rw [Nat.zero_add] at hk
  refine ⟨?_, hb⟩
  rw [hk]
  rcases Nat.lt_trichotomy k p with h | h | h
  · exact absurd hdot (hmin k h)
  · exact h
  · exact absurd hp (hk4 p h)

theorem map_fill_eq (b : sudoku_t) (p : Nat) :
    (List.range' 1 9).map (fill b p) = digits.map (setCell b p) := rfl

theorem setCell_injective (b : sudoku_t) (p : Nat) (hp : p < b.spots.length) :
    Function.Injective (setCell b p) := by
  intro d1 d2 h
  have h2 : charAt (setCell b p d1).spots p = charAt (setCell b p d2).spots p := by rw [h]
  simpa [setCell, charAt_set, hp] using h2

theorem keeps_set (l : List Char) (p : Nat) (c : Char) (hp : charAt l p = '.') :
    Keeps l (l.set p c) := by
  intro i hi
  rw [charAt_set, if_neg]
  rintro ⟨rfl, _⟩
  exact hi hp

theorem succ_eq_of_first_blank (b : sudoku_t) (hlen : b.spots.length = 81) (p : Nat)
    (hp : charAt b.spots p = '.') (hmin : ∀ q < p, charAt b.spots q ≠ '.') :
    succ b = (digits.map (setCell b p)).filter (fun s => valid s) := by
  have hlt := charAt_eq_dot_lt hp
  have hfb := (findBlank_eq_first b.spots p hp hmin).1
  rw [succ_eq, hfb, if_neg (by omega), map_fill_eq]

/-- C6. For a board of 81 cells whose first `'.'` is at offset `p`, `succ`
is the list of the boards with cell `p` set to `'1'`, .., `'9'`, in this
order, from which exactly the boards that `valid` rejects are removed; no
board occurs twice in it. -/
theorem C6_succ_is_filtered_candidates (b : sudoku_t) (hlen : b.spots.length = 81) (p : Nat)
    (hp : charAt b.spots p = '.') (hmin : ∀ q < p, charAt b.spots q ≠ '.') :
    succ b = (digits.map (setCell b p)).filter (fun s => valid s) ∧ (succ b).Nodup := by
  have h1 := succ_eq_of_first_blank b hlen p hp hmin
  refine ⟨h1, ?_⟩
  rw [h1]
  exact ((by decide : digits.Nodup).map
    (setCell_injective b p (charAt_eq_dot_lt hp))).filter _

set_option maxRecDepth 100000 in
theorem C6_succ_is_filtered_candidates_witness :
    oneBlankBoard.spots.length = 81 ∧ charAt oneBlankBoard.spots 80 = '.' ∧
      (∀ q < 80, charAt oneBlankBoard.spots q ≠ '.') ∧
      succ oneBlankBoard
        = (digits.map (setCell oneBlankBoard 80)).filter (fun s => valid s) ∧
      (succ oneBlankBoard).Nodup :=
  ⟨by decide, by decide, by decide,
    C6_succ_is_filtered_candidates oneBlankBoard (by decide) 80 (by decide) (by decide)⟩

/-- C7. Every board `s` of `succ b`, for a board `b` of 81 cells, has the
length of `b`, passes `valid`, and differs from `b` in exactly one cell: the
first `'.'` of `b`, where `s` holds a digit `'1'..'9'`. -/
theorem C7_succ_members (b : sudoku_t) (hlen : b.spots.length = 81) (s : sudoku_t)
    (hs : s ∈ succ b) :
    s.spots.length = b.spots.length ∧ valid s = true ∧
      ∃ p, p < 81 ∧ charAt b.spots p = '.' ∧ (∀ q < p, charAt b.spots q ≠ '.') ∧
        charAt s.spots p ∈ digits ∧ charAt s.spots p ≠ charAt b.spots p ∧
        ∀ i, i ≠ p → charAt s.spots i = charAt b.spots i := by
  obtain ⟨hb, _, i, hi1, hi9, rfl, hv⟩ := mem_succ hs
  obtain ⟨k, hk, hklt, hdot, hk4⟩ := findBlank_of_hasBlank b.spots 0 hb
  rw [Nat.zero_add] at hk
  have hsk : charAt (fill b (findBlank b.spots 0) i).spots k = digitChar i := by
    simp [fill, hk, charAt_set, hklt]
  refine ⟨by simp [fill], hv, k, by omega, hdot, hk4, ?_, ?_, ?_⟩
  · rw [hsk]; exact digitChar_mem_digits i hi1 hi9
  · rw [hsk, hdot]; exact digitChar_ne_dot i hi1 hi9
  · intro j hj
    simp only [fill, hk, charAt_set]
    rw [if_neg (fun c => hj c.1)]

set_option maxRecDepth 100000 in
theorem C7_succ_members_witness :
    oneBlankBoard.spots.length = 81 ∧ solvedBoard ∈ succ oneBlankBoard ∧
      solvedBoard.spots.length = oneBlankBoard.spots.length ∧ valid solvedBoard = true ∧
      ∃ p, p < 81 ∧ charAt oneBlankBoard.spots p = '.' ∧
        (∀ q < p, charAt oneBlankBoard.spots q ≠ '.') ∧
        charAt solvedBoard.spots p ∈ digits ∧
        charAt solvedBoard.spots p ≠ charAt oneBlankBoard.spots p ∧
        ∀ i, i ≠ p → charAt solvedBoard.spots i = charAt oneBlankBoard.spots i :=
  ⟨by decide, by decide, C7_succ_members oneBlankBoard (by decide) solvedBoard (by decide)⟩

theorem two_le_count (g : List Char) (d : Char) (i j : Nat) (hij : i < j)
    (hi : g[i]? = some d) (hj : g[j]? = some d) : 2 ≤ g.count d := by
  induction g generalizing i j with
  | nil => simp at hi
  | cons x xs ih =>
    cases j with
    | zero => omega
    | succ j2 =>
      rw [List.getElem?_cons_succ] at hj
      cases i with
      | zero =>
        have hx : x = d := by simpa using hi
        subst hx
        have hmem : x ∈ xs := List.getElem?_mem hj
        have := List.count_pos_iff.2 hmem
        rw [List.count_cons_self]
        omega
      | succ i2 =>
        rw [List.getElem?_cons_succ] at hi
        have := ih i2 j2 (by omega) hi hj
        simp only [List.count_cons]
        omega

theorem succ_eq_nil_of_not_valid (b : sudoku_t) (hv : valid b = false) : succ b = [] := by
  apply List.eq_nil_iff_forall_not_mem.2
  intro s hs
  obtain ⟨hb, _, i, _, _, rfl, hvs⟩ := mem_succ hs
  obtain ⟨k, hk, _, hdot, _⟩ := findBlank_of_hasBlank b.spots 0 hb
  rw [Nat.zero_add] at hk
  have hkeep : Keeps b.spots (fill b (findBlank b.spots 0) i).spots := by
    rw [hk]; exact keeps_set b.spots k _ hdot
  rw [valid_of_keeps hkeep hvs] at hv
  cases hv

/-- C8. A board of 81 cells on which `valid` is false has no successor and
`dfs` reports `valid = false` for it, with or without blanks; and `valid` is
false on every board that holds the same digit `'1'..'9'` twice in a row. -/
theorem C8_invalid_root (b : sudoku_t) (hlen : b.spots.length = 81) :
    (valid b = false → succ b = [] ∧ (dfs b).valid = false) ∧
      (∀ r c1 c2, r < 9 → c1 < c2 → c2 < 9 → charAt b.spots (9 * r + c1) ∈ digits →
        charAt b.spots (9 * r + c2) = charAt b.spots (9 * r + c1) → valid b = false) := by
  constructor
  · intro hv
    have hs := succ_eq_nil_of_not_valid b hv
    refine ⟨hs, ?_⟩
    have hsol : ¬ solution b = true := by
      rw [solution_iff, hv]; simp
    rw [dfs_of_no_succ hsol (by rw [hs]; rfl)]
    rfl
  · intro r c1 c2 hr h12 h2 hd heq
    by_contra hv
    have hv : valid b = true := by simpa using hv
    have hrow := ((valid_iff_validRef b).1 hv).1 r hr _ hd
    have h1 : (readAt b.spots (rowOffsets r))[c1]? = some (charAt b.spots (9 * r + c1)) := by
      simp [readAt, rowOffsets, List.getElem?_range (by omega : c1 < 9)]
    have h2 : (readAt b.spots (rowOffsets r))[c2]? = some (charAt b.spots (9 * r + c1)) := by
      simp [readAt, rowOffsets, List.getElem?_range h2, heq]
    have := two_le_count _ _ c1 c2 h12 h1 h2
    omega

set_option maxRecDepth 100000 in
theorem C8_invalid_root_witness :
    rowConflictBoard.spots.length = 81 ∧ valid rowConflictBoard = false ∧
      hasBlank rowConflictBoard.spots = true ∧
      succ rowConflictBoard = [] ∧ (dfs rowConflictBoard).valid = false :=
  ⟨by decide, by decide, by decide,
    (C8_invalid_root rowConflictBoard (by decide)).1 (by decide)⟩

/-- C9. On a board of 81 cells without `'.'` that passes `valid`, `solution`
is true and `dfs` returns the board itself with `valid = true`; the body of
`dfs` gives this result whatever `succ` and the recursive call would return,
so neither is used. -/
theorem C9_solved_board (b : sudoku_t) (hlen : b.spots.length = 81)
    (hfull : '.' ∉ b.spots) (hv : valid b = true) :
    solution b = true ∧ dfs b = { state := b, valid := true } ∧
      (dfs b).valid = true ∧ (dfs b).state.spots = b.spots ∧
      dfs b = dfsBody succ dfs b ∧
      ∀ (succF : sudoku_t → List sudoku_t) (recF : sudoku_t → state_t sudoku_t),
        dfsBody succF recF b = { state := b, valid := true } := by
  have hb : hasBlank b.spots = false := by
    rw [← Bool.not_eq_true, hasBlank_iff]; exact hfull
  have hs : solution b = true := (solution_iff b).2 ⟨hb, hv⟩
  have hd := dfs_of_solution hs
  refine ⟨hs, hd, by rw [hd], by rw [hd], dfs_eq_dfsBody b, fun succF recF => ?_⟩
  unfold dfsBody
  rw [if_pos hs]

set_option maxRecDepth 100000 in
theorem C9_solved_board_witness :
    solvedBoard.spots.length = 81 ∧ '.' ∉ solvedBoard.spots ∧ valid solvedBoard = true ∧
      solution solvedBoard = true ∧ dfs solvedBoard = { state := solvedBoard, valid := true } :=
  have h := C9_solved_board solvedBoard (by decide) (by decide) (by decide)
  ⟨by decide, by decide, by decide, h.1, h.2.1⟩

theorem readAt_range (s : List Char) : readAt s (List.range s.length) = s := by
  apply List.ext_getElem
  · simp [readAt]
  · intro i h1 h2
    simp only [readAt, List.getElem_map, List.getElem_range, charAt]
    exact List.getD_eq_getElem _ _ h2

theorem count_readAt_flatten (s : List Char) (P : List (List Nat)) (d : Char) :
    (readAt s P.flatten).count d = (P.map (fun g => (readAt s g).count d)).sum := by
  induction P with
  | nil => rfl
  | cons g rest ih =>
    simp only [List.flatten_cons, List.map_cons, List.sum_cons, ← ih]
    simp [readAt, List.count_append]

theorem count_eq_sum_partition (s : List Char) (hlen : s.length = 81) (P : List (List Nat))
    (hP : P.flatten.Perm (List.range 81)) (d : Char) :
    s.count d = (P.map (fun g => (readAt s g).count d)).sum := by
  rw [← count_readAt_flatten]
  have h1 : (readAt s P.flatten).Perm (readAt s (List.range 81)) := hP.map _
  rw [h1.count_eq, ← hlen, readAt_range]

theorem partitions_shape : ∀ P ∈ partitions,
    P.flatten.Perm (List.range 81) ∧ P.length = 9 ∧ ∀ g ∈ P, g ∈ groups := by
  decide

theorem groups_in_partition : ∀ g ∈ groups, ∃ P ∈ partitions, g ∈ P := by decide

theorem sum_counts_le (l : List Char) :
    l.count '1' + l.count '2' + l.count '3' + l.count '4' + l.count '5' + l.count '6'
      + l.count '7' + l.count '8' + l.count '9' + l.count '.' ≤ l.length := by
  induction l with
  | nil => simp
  | cons x xs ih =>
    simp only [List.count_cons, List.length_cons, beq_iff_eq]
    by_cases h1 : x = '1'
    · subst h1; simp; omega
    by_cases h2 : x = '2'
    · subst h2; simp; omega
    by_cases h3 : x = '3'
    · subst h3; simp; omega
    by_cases h4 : x = '4'
    · subst h4; simp; omega
    by_cases h5 : x = '5'
    · subst h5; simp; omega
    by_cases h6 : x = '6'
    · subst h6; simp; omega
    by_cases h7 : x = '7'
    · subst h7; simp; omega
    by_cases h8 : x = '8'
    · subst h8; simp; omega
    by_cases h9 : x = '9'
    · subst h9; simp; omega
    by_cases h0 : x = '.'
    · subst h0; simp; omega
    · simp [h1, h2, h3, h4, h5, h6, h7, h8, h9, h0]; omega

theorem sum_counts_alpha (l : List Char) (h : ∀ c ∈ l, c = '.' ∨ c ∈ digits) :
    l.count '1' + l.count '2' + l.count '3' + l.count '4' + l.count '5' + l.count '6'
      + l.count '7' + l.count '8' + l.count '9' + l.count '.' = l.length := by
  induction l with
  | nil => simp
  | cons x xs ih =>
    have hx := h x (List.mem_cons_self _ _)
    have ih2 := ih (fun y hy => h y (List.mem_cons_of_mem _ hy))
    simp only [digits, List.mem_cons, List.mem_singleton, List.mem_nil_iff, or_false] at hx
    rcases hx with rfl | rfl | rfl | rfl | rfl | rfl | rfl | rfl | rfl | rfl <;>
      simp [List.count_cons] <;> omega

theorem sum_le_length_of_le_one (L : List Nat) (h1 : ∀ x ∈ L, x ≤ 1) : L.sum ≤ L.length := by
  induction L with
  | nil => simp
  | cons x xs ih =>
    have := h1 x (List.mem_cons_self _ _)
    have := ih (fun y hy => h1 y (List.mem_cons_of_mem _ hy))
    simp only [List.sum_cons, List.length_cons]
    omega

theorem all_one_of_sum (L : List Nat) (h1 : ∀ x ∈ L, x ≤ 1) (hs : L.sum = L.length) :
    ∀ x ∈ L, x = 1 := by
  induction L with
  | nil => simp
  | cons x xs ih =>
    have hx := h1 x (List.mem_cons_self _ _)
    have hxs := sum_le_length_of_le_one xs (fun y hy => h1 y (List.mem_cons_of_mem _ hy))
    simp only [List.sum_cons, List.length_cons] at hs
    intro y hy
    rcases List.mem_cons.1 hy with rfl | hy
    · omega
    · exact ih (fun y hy => h1 y (List.mem_cons_of_mem _ hy)) (by omega) y hy

theorem nine_sum_eighty (a1 a2 a3 a4 a5 a6 a7 a8 a9 : Nat) (h1 : a1 ≤ 9) (h2 : a2 ≤ 9)
    (h3 : a3 ≤ 9) (h4 : a4 ≤ 9) (h5 : a5 ≤ 9) (h6 : a6 ≤ 9) (h7 : a7 ≤ 9) (h8 : a8 ≤ 9)
    (h9 : a9 ≤ 9) (hs : a1 + a2 + a3 + a4 + a5 + a6 + a7 + a8 + a9 = 80) :
    8 ≤ a1 ∧ 8 ≤ a2 ∧ 8 ≤ a3 ∧ 8 ≤ a4 ∧ 8 ≤ a5 ∧ 8 ≤ a6 ∧ 8 ≤ a7 ∧ 8 ≤ a8 ∧ 8 ≤ a9 := by
  omega

/-- On a valid board of 81 cells a digit occurs at most nine times, and a
digit that occurs nine times is in every group. -/
theorem count_le_nine (b : sudoku_t) (hlen : b.spots.length = 81) (hv : valid b = true)
    (d : Char) (hd : d ∈ digits) :
    b.spots.count d ≤ 9 ∧
      (b.spots.count d = 9 → ∀ g ∈ groups, (readAt b.spots g).count d = 1) := by
  have hg := (valid_iff_groups b).1 hv
  have key : ∀ P ∈ partitions, b.spots.count d ≤ 9 ∧
      (b.spots.count d = 9 → ∀ g ∈ P, (readAt b.spots g).count d = 1) := by
    intro P hP
    obtain ⟨hperm, hlenP, hsub⟩ := partitions_shape P hP
    have hsum := count_eq_sum_partition b.spots hlen P hperm d
    have hle : ∀ x ∈ P.map (fun g => (readAt b.spots g).count d), x ≤ 1 := by
      intro x hx
      obtain ⟨g, hgP, rfl⟩ := List.mem_map.1 hx
      exact hg g (hsub g hgP) d hd
    have hbound := sum_le_length_of_le_one _ hle
    rw [List.length_map, hlenP] at hbound
    refine ⟨by omega, fun h9 g hgP => ?_⟩
    exact all_one_of_sum _ hle (by rw [List.length_map, hlenP]; omega) _
      (List.mem_map.2 ⟨g, hgP, rfl⟩)
  refine ⟨(key _ (List.mem_cons_self _ _)).1, fun h9 g hgm => ?_⟩
  obtain ⟨P, hP, hgP⟩ := groups_in_partition g hgm
  exact (key P hP).2 h9 g hgP

/-- On a valid board of 81 cells over the alphabet with exactly one blank, one
digit occurs eight times and every other digit nine times. -/
theorem exists_short_digit (b : sudoku_t) (hlen : b.spots.length = 81)
    (halpha : ∀ c ∈ b.spots, c = '.' ∨ c ∈ digits) (hv : valid b = true)
    (hone : blanks b.spots = 1) :
    ∃ d ∈ digits, b.spots.count d = 8 ∧ ∀ e ∈ digits, e ≠ d → b.spots.count e = 9 := by
  have hsum := sum_counts_alpha b.spots halpha
  unfold blanks at hone
  rw [hone, hlen] at hsum
  have h1 := (count_le_nine b hlen hv '1' (by decide)).1
  have h2 := (count_le_nine b hlen hv '2' (by decide)).1
  have h3 := (count_le_nine b hlen hv '3' (by decide)).1
  have h4 := (count_le_nine b hlen hv '4' (by decide)).1
  have h5 := (count_le_nine b hlen hv '5' (by decide)).1
  have h6 := (count_le_nine b hlen hv '6' (by decide)).1
  have h7 := (count_le_nine b hlen hv '7' (by decide)).1
  have h8 := (count_le_nine b hlen hv '8' (by decide)).1
  have h9 := (count_le_nine b hlen hv '9' (by decide)).1
  have hall : ∀ e ∈ digits, 8 ≤ b.spots.count e := by
    obtain ⟨g1, g2, g3, g4, g5, g6, g7, g8, g9⟩ :=
      nine_sum_eighty _ _ _ _ _ _ _ _ _ h1 h2 h3 h4 h5 h6 h7 h8 h9 (by omega)
    intro e he
    simp only [digits, List.mem_cons, List.mem_singleton, List.mem_nil_iff, or_false] at he
    rcases he with rfl | rfl | rfl | rfl | rfl | rfl | rfl | rfl | rfl <;> assumption
  have hex : ∃ d ∈ digits, b.spots.count d = 8 := by
    by_contra hno
    push_neg at hno
    have k1 := hno '1' (by decide)
    have k2 := hno '2' (by decide)
    have k3 := hno '3' (by decide)
    have k4 := hno '4' (by decide)
    have k5 := hno '5' (by decide)
    have k6 := hno '6' (by decide)
    have k7 := hno '7' (by decide)
    have k8 := hno '8' (by decide)
    have k9 := hno '9' (by decide)
    omega
  obtain ⟨d, hd, hd8⟩ := hex
  refine ⟨d, hd, hd8, fun e he hne => ?_⟩
  by_contra h9e
  have he8 : b.spots.count e = 8 := by
    have := hall e he
    have := (count_le_nine b hlen hv e he).1
    omega
  -- two different digits with eight occurrences leave a sum of at most 79
  have hpair : ∀ x ∈ digits, ∀ y ∈ digits, x ≠ y → b.spots.count x = 8 →
      b.spots.count y = 8 → False := by
    intro x hx y hy hxy hx8 hy8
    simp only [digits, List.mem_cons, List.mem_singleton, List.mem_nil_iff, or_false]
      at hx hy
    rcases hx with rfl | rfl | rfl | rfl | rfl | rfl | rfl | rfl | rfl <;>
      rcases hy with rfl | rfl | rfl | rfl | rfl | rfl | rfl | rfl | rfl <;>
      first
        | exact hxy rfl
        | omega
  exact hpair e he d hd hne he8 hd8

theorem groups_nodup : ∀ g ∈ groups, g.Nodup := by decide

theorem offset_groups : ∀ p < 81,
    (p ∈ rowOffsets (p / 9) ∧ rowOffsets (p / 9) ∈ groups) ∧
    (p ∈ colOffsets (p % 9) ∧ colOffsets (p % 9) ∈ groups) ∧
    (p ∈ blockOffsets (3 * (p / 27) + p % 9 / 3) ∧
      blockOffsets (3 * (p / 27) + p % 9 / 3) ∈ groups) := by
  decide

theorem count_readAt_set (l : List Char) (p : Nat) (c d : Char) (hp : p < l.length)
    (hdot : charAt l p = '.') (hd : d ≠ '.') (offs : List Nat) (hn : offs.Nodup) :
    (readAt (l.set p c) offs).count d
      = (readAt l offs).count d + (if p ∈ offs ∧ c = d then 1 else 0) := by
  induction offs with
  | nil => simp [readAt]
  | cons i rest ih =>
    have hn2 := List.nodup_cons.1 hn
    rw [show readAt (l.set p c) (i :: rest)
        = charAt (l.set p c) i :: readAt (l.set p c) rest from rfl,
      show readAt l (i :: rest) = charAt l i :: readAt l rest from rfl,
      List.count_cons, List.count_cons, ih hn2.2, charAt_set]
    by_cases hip : i = p
    · subst hip
      have hpr : i ∉ rest := hn2.1
      have hold : ¬ (charAt l i = d) := by rw [hdot]; exact fun e => hd e.symm
      by_cases hcd : c = d
      · simp [hp, hpr, hold, hcd]
      · simp [hp, hpr, hold, hcd]
    · have hpi : ¬ p = i := fun e => hip e.symm
      by_cases hcd : c = d
      · by_cases hpr : p ∈ rest
        · simp [hip, hpi, hcd, hpr]
          omega
        · simp [hip, hpi, hcd, hpr]
      · simp [hip, hpi, hcd]

/-- The digit that occurs only eight times is missing from every group that
holds the blank. -/
theorem short_digit_missing (b : sudoku_t) (hlen : b.spots.length = 81)
    (hv : valid b = true) (d : Char) (hd : d ∈ digits)
    (hrest : ∀ e ∈ digits, e ≠ d → b.spots.count e = 9) (p : Nat)
    (hp : charAt b.spots p = '.') (g : List Nat) (hg : g ∈ groups) (hpg : p ∈ g) :
    (readAt b.spots g).count d = 0 := by
  by_contra hne
  have hall : ∀ e ∈ digits, 1 ≤ (readAt b.spots g).count e := by
    intro e he
    by_cases hed : e = d
    · subst hed; omega
    · rw [(count_le_nine b hlen hv e he).2 (hrest e he hed) g hg]
  have hdot : 1 ≤ (readAt b.spots g).count '.' := by
    apply List.count_pos_iff.2
    rw [← hp]
    exact List.mem_map.2 ⟨p, hpg, rfl⟩
  have hle := sum_counts_le (readAt b.spots g)
  have hl9 : (readAt b.spots g).length = 9 := by
    simp [readAt, (groups_shape g hg).1]
  have h1 := hall '1' (by decide)
  have h2 := hall '2' (by decide)
  have h3 := hall '3' (by decide)
  have h4 := hall '4' (by decide)
  have h5 := hall '5' (by decide)
  have h6 := hall '6' (by decide)
  have h7 := hall '7' (by decide)
  have h8 := hall '8' (by decide)
  have h9 := hall '9' (by decide)
  omega

/-- With a single blank, the board obtained by writing a digit into it is
valid exactly for the digit that occurs only eight times. -/
theorem valid_setCell_iff (b : sudoku_t) (hlen : b.spots.length = 81)
    (hv : valid b = true) (d : Char) (hd : d ∈ digits)
    (hrest : ∀ e ∈ digits, e ≠ d → b.spots.count e = 9) (p : Nat)
    (hp : charAt b.spots p = '.') (c : Char) (hc : c ∈ digits) :
    valid (setCell b p c) = true ↔ c = d := by
  have hplt := charAt_eq_dot_lt hp
  have hp81 : p < 81 := by omega
  rw [valid_iff_groups]
  constructor
  · intro h
    by_contra hcd
    obtain ⟨⟨hpr, hrg⟩, _⟩ := offset_groups p hp81
    have hnew := h _ hrg c hc
    have hcdot : c ≠ '.' := fun e => dot_not_digit (e ▸ hc)
    simp only [setCell] at hnew
    rw [count_readAt_set b.spots p c c hplt hp hcdot _ (groups_nodup _ hrg),
      if_pos ⟨hpr, rfl⟩, (count_le_nine b hlen hv c hc).2 (hrest c hc hcd) _ hrg] at hnew
    omega
  · rintro rfl g hg e he
    have hedot : e ≠ '.' := fun h => dot_not_digit (h ▸ he)
    simp only [setCell]
    rw [count_readAt_set b.spots p c e hplt hp hedot g (groups_nodup g hg)]
    have hold := (valid_iff_groups b).1 hv g hg e he
    by_cases hcase : p ∈ g ∧ c = e
    · rw [if_pos hcase]
      obtain ⟨hpg, rfl⟩ := hcase
      rw [short_digit_missing b hlen hv c hd hrest p hp g hg hpg]
    · rw [if_neg hcase]
      exact hold

theorem filter_eq_singleton {α : Type} [DecidableEq α] (L : List α) (q : α → Bool) (a : α)
    (hn : L.Nodup) (ha : a ∈ L) (hq : ∀ x ∈ L, q x = true ↔ x = a) : L.filter q = [a] := by
  induction L with
  | nil => cases ha
  | cons x xs ih =>
    have hn2 := List.nodup_cons.1 hn
    by_cases hx : x = a
    · subst hx
      have hq1 : q x = true := (hq x (List.mem_cons_self _ _)).2 rfl
      have hrest : xs.filter q = [] := by
        apply List.filter_eq_nil_iff.2
        intro y hy hqy
        have := (hq y (List.mem_cons_of_mem _ hy)).1 hqy
        exact hn2.1 (this ▸ hy)
      rw [List.filter_cons, if_pos hq1, hrest]
    · have hq1 : ¬ q x = true := fun h => hx ((hq x (List.mem_cons_self _ _)).1 h)
      have ha2 : a ∈ xs := by
        rcases List.mem_cons.1 ha with h | h
        · exact absurd h.symm hx
        · exact h
      rw [List.filter_cons, if_neg hq1]
      exact ih hn2.2 ha2 (fun y hy => hq y (List.mem_cons_of_mem _ hy))

theorem blanks_eq_one (l : List Char) (p : Nat) (hp : charAt l p = '.')
    (hone : ∀ q, charAt l q = '.' → q = p) (c : Char) (hc : c ≠ '.') :
    blanks l = 1 ∧ hasBlank (l.set p c) = false := by
  have hplt := charAt_eq_dot_lt hp
  have hnb : hasBlank (l.set p c) = false := by
    rw [← Bool.not_eq_true, hasBlank_iff]
    intro hmem
    obtain ⟨n, hn, hget⟩ := List.mem_iff_getElem.1 hmem
    have hcn : charAt (l.set p c) n = '.' := by
      unfold charAt; rw [List.getD_eq_getElem _ _ hn]; exact hget
    rw [charAt_set] at hcn
    by_cases hnp : n = p ∧ p < l.length
    · rw [if_pos hnp] at hcn; exact hc hcn
    · rw [if_neg hnp] at hcn
      exact hnp ⟨hone n hcn, hplt⟩
  have h0 : blanks (l.set p c) = 0 := by
    unfold blanks
    rw [List.count_eq_zero, ← hasBlank_iff, hnb]
    simp
  have := count_set_blank l p c hplt hp hc
  exact ⟨by omega, hnb⟩

theorem missing_iff (b : sudoku_t) (hlen : b.spots.length = 81)
    (hv : valid b = true) (d : Char) (hd : d ∈ digits)
    (hrest : ∀ e ∈ digits, e ≠ d → b.spots.count e = 9) (p : Nat)
    (hp : charAt b.spots p = '.') (g : List Nat) (hg : g ∈ groups) (hpg : p ∈ g) :
    ∀ e ∈ digits, (e ∉ readAt b.spots g ↔ e = d) := by
  intro e he
  rw [← List.count_eq_zero]
  constructor
  · intro h0
    by_contra hed
    rw [(count_le_nine b hlen hv e he).2 (hrest e he hed) g hg] at h0
    cases h0
  · rintro rfl
    exact short_digit_missing b hlen hv e hd hrest p hp g hg hpg

/-- C10. A board of 81 cells over `'1'..'9'` and `'.'` that passes `valid` and
whose only `'.'` is at offset `p`: one digit `d` is missing from the row of
`p`, and it is also the one digit missing from the column and from the block
of `p`; `succ` returns the single board with `d` written at `p`, this board
satisfies `solution`, and `dfs` returns it with `valid = true`. -/
theorem C10_single_blank (b : sudoku_t) (hlen : b.spots.length = 81)
    (halpha : ∀ c ∈ b.spots, c = '.' ∨ c ∈ digits) (hv : valid b = true) (p : Nat)
    (hp : charAt b.spots p = '.') (hone : ∀ q, charAt b.spots q = '.' → q = p) :
    ∃ d ∈ digits,
      (∀ e ∈ digits, (e ∉ readAt b.spots (rowOffsets (p / 9)) ↔ e = d)) ∧
      (∀ e ∈ digits, (e ∉ readAt b.spots (colOffsets (p % 9)) ↔ e = d)) ∧
      (∀ e ∈ digits,
        (e ∉ readAt b.spots (blockOffsets (3 * (p / 27) + p % 9 / 3)) ↔ e = d)) ∧
      succ b = [setCell b p d] ∧ solution (setCell b p d) = true ∧
      dfs b = { state := setCell b p d, valid := true } := by
  have hplt := charAt_eq_dot_lt hp
  have hp81 : p < 81 := by omega
  obtain ⟨d, hd, _, hrest⟩ :=
    exists_short_digit b hlen halpha hv (blanks_eq_one b.spots p hp hone '1' (by decide)).1
  have hddot : d ≠ '.' := fun e => dot_not_digit (e ▸ hd)
  obtain ⟨⟨hpr, hrg⟩, ⟨hpc, hcg⟩, ⟨hpb, hbg⟩⟩ := offset_groups p hp81
  have hmin : ∀ q < p, charAt b.spots q ≠ '.' := fun q hq e => by
    have := hone q e; omega
  have hsucc : succ b = [setCell b p d] := by
    rw [succ_eq_of_first_blank b hlen p hp hmin, List.filter_map,
      filter_eq_singleton digits ((fun s => valid s) ∘ setCell b p) d (by decide) hd
        (fun c hc => valid_setCell_iff b hlen hv d hd hrest p hp c hc)]
    rfl
  have hsol : solution (setCell b p d) = true :=
    (solution_iff _).2 ⟨(blanks_eq_one b.spots p hp hone d hddot).2,
      (valid_setCell_iff b hlen hv d hd hrest p hp d hd).2 rfl⟩
  have hnsol : ¬ solution b = true := by
    intro h
    have h1 := ((solution_iff b).1 h).1
    exact charAt_ne_dot_of_not_hasBlank _ h1 p hp
  refine ⟨d, hd, missing_iff b hlen hv d hd hrest p hp _ hrg hpr,
    missing_iff b hlen hv d hd hrest p hp _ hcg hpc,
    missing_iff b hlen hv d hd hrest p hp _ hbg hpb, hsucc, hsol, ?_⟩
  rw [dfs_of_succ hnsol (by rw [hsucc]; simp), hsucc]
  simp [firstValid, dfs_of_solution hsol]

set_option maxRecDepth 100000 in
theorem C10_single_blank_witness :
    oneBlankBoard.spots.length = 81 ∧ (∀ c ∈ oneBlankBoard.spots, c = '.' ∨ c ∈ digits) ∧
      valid oneBlankBoard = true ∧ charAt oneBlankBoard.spots 80 = '.' ∧
      (∀ q, charAt oneBlankBoard.spots q = '.' → q = 80) ∧
      ∃ d ∈ digits,
        (∀ e ∈ digits, (e ∉ readAt oneBlankBoard.spots (rowOffsets (80 / 9)) ↔ e = d)) ∧
        (∀ e ∈ digits, (e ∉ readAt oneBlankBoard.spots (colOffsets (80 % 9)) ↔ e = d)) ∧
        (∀ e ∈ digits,
          (e ∉ readAt oneBlankBoard.spots (blockOffsets (3 * (80 / 27) + 80 % 9 / 3))
            ↔ e = d)) ∧
        succ oneBlankBoard = [setCell oneBlankBoard 80 d] ∧
        solution (setCell oneBlankBoard 80 d) = true ∧
        dfs oneBlankBoard = { state := setCell oneBlankBoard 80 d, valid := true } :=
  have hone : ∀ q, charAt oneBlankBoard.spots q = '.' → q = 80 := by
    intro q hq
    have hlt : q < 81 := charAt_eq_dot_lt hq
    have hall : ∀ k < 81, charAt oneBlankBoard.spots k = '.' → k = 80 := by decide
    exact hall q hlt hq
  ⟨by decide, by decide, by decide, by decide, hone,
    C10_single_blank oneBlankBoard (by decide) (by decide) (by decide) 80 (by decide) hone⟩

theorem blanks_succ_eq {board s : sudoku_t} (h : s ∈ succ board) :
    blanks s.spots + 1 = blanks board.spots := by
  obtain ⟨hb, _, i, h1, h9, rfl, _⟩ := mem_succ h
  obtain ⟨k, hk, hlt, hdot, _⟩ := findBlank_of_hasBlank board.spots 0 hb
  have := count_set_blank board.spots k (digitChar i) hlt hdot (digitChar_ne_dot i h1 h9)
  simp only [fill, hk, Nat.zero_add]
  exact this

theorem blanks_le_length (l : List Char) : blanks l ≤ l.length := List.count_le_length _ _

theorem chain_length_le (b : sudoku_t) (l : List sudoku_t)
    (h : List.Chain (fun x y => y ∈ succ x) b l) : l.length + blanks (l.getLastD b).spots
      = blanks b.spots := by
  induction l generalizing b with
  | nil => simp
  | cons x xs ih =>
    rw [List.chain_cons] at h
    have h1 := blanks_succ_eq h.1
    have h2 := ih x h.2
    have h3 : (x :: xs).getLastD b = xs.getLastD x := by
      cases xs <;> simp [List.getLastD]
    rw [h3, List.length_cons]
    omega

theorem firstValidDepth_eq (f : sudoku_t → Option (state_t sudoku_t))
    (g : sudoku_t → state_t sudoku_t) (l : List sudoku_t) (h : ∀ o ∈ l, f o = some (g o)) :
    firstValidDepth f l = some (firstValid g l) := by
  induction l with
  | nil => rfl
  | cons x xs ih =>
    have hx := h x (List.mem_cons_self _ _)
    have ih2 := ih (fun o ho => h o (List.mem_cons_of_mem _ ho))
    simp only [firstValidDepth, firstValid, hx, ih2]
    split <;> rfl

theorem dfsDepth_eq (n : Nat) (b : sudoku_t) (h : blanks b.spots < n) :
    dfsDepth n b = some (dfs b) := by
  induction n generalizing b with
  | zero => omega
  | succ n ih =>
    by_cases hs : solution b = true
    · rw [dfs_of_solution hs]
      simp [dfsDepth, hs]
    · by_cases h0 : (succ b).length = 0
      · rw [dfs_of_no_succ hs h0]
        simp [dfsDepth, hs, h0]
      · rw [dfs_of_succ hs h0]
        have hall : ∀ o ∈ succ b, dfsDepth n o = some (dfs o) := by
          intro o ho
          have := blanks_succ_eq ho
          exact ih o (by omega)
        simp only [dfsDepth, hs, h0, if_false]
        exact firstValidDepth_eq _ _ _ hall

/-- C11. On a board of 81 cells every board of `succ` has exactly one `'.'`
less; a chain of successors starting at `b` has at most as many steps as `b`
has blanks, so at most 81; and `dfs`, a total function by recursion on the
number of blanks, returns its result within that many nested calls below the
first one. -/
theorem C11_progress_termination (b : sudoku_t) (hlen : b.spots.length = 81) :
    (∀ s ∈ succ b, blanks s.spots + 1 = blanks b.spots) ∧
      (∀ l : List sudoku_t, List.Chain (fun x y => y ∈ succ x) b l →
        l.length ≤ blanks b.spots ∧ l.length ≤ 81) ∧
      blanks b.spots ≤ 81 ∧
      (∀ n, blanks b.spots < n → dfsDepth n b = some (dfs b)) ∧
      dfsDepth 82 b = some (dfs b) := by
  have hle : blanks b.spots ≤ 81 := hlen ▸ blanks_le_length b.spots
  refine ⟨fun s hs => blanks_succ_eq hs, fun l hl => ?_, hle,
    fun n hn => dfsDepth_eq n b hn, dfsDepth_eq 82 b (by omega)⟩
  have := chain_length_le b l hl
  omega

set_option maxRecDepth 100000 in
theorem C11_progress_termination_witness :
    oneBlankBoard.spots.length = 81 ∧
      (∀ s ∈ succ oneBlankBoard, blanks s.spots + 1 = blanks oneBlankBoard.spots) ∧
      dfsDepth 82 oneBlankBoard = some (dfs oneBlankBoard) :=
  have h := C11_progress_termination oneBlankBoard (by decide)
  ⟨by decide, h.1, h.2.2.2.2⟩

/-- C12. On a board of 81 cells, a result of `dfs` with `valid` set has spots
of length 81 that equal the input wherever it is not `'.'` and hold a digit
`'1'..'9'` wherever it is `'.'`. -/
theorem C12_solution_keeps_clues (b : sudoku_t) (hlen : b.spots.length = 81)
    (h : (dfs b).valid = true) :
    (dfs b).state.spots.length = 81 ∧
      (∀ i < 81, charAt b.spots i ≠ '.' →
        charAt (dfs b).state.spots i = charAt b.spots i) ∧
      (∀ i < 81, charAt b.spots i = '.' → charAt (dfs b).state.spots i ∈ digits) := by
  obtain ⟨hl, hall⟩ := (dfs_sound b h).2
  rw [hlen] at hl hall
  exact ⟨hl, fun i hi => (hall i hi).1, fun i hi => (hall i hi).2⟩

set_option maxRecDepth 100000 in
theorem C12_solution_keeps_clues_witness :
    oneBlankBoard.spots.length = 81 ∧ (dfs oneBlankBoard).valid = true ∧
      (dfs oneBlankBoard).state.spots.length = 81 ∧
      (∀ i < 81, charAt oneBlankBoard.spots i ≠ '.' →
        charAt (dfs oneBlankBoard).state.spots i = charAt oneBlankBoard.spots i) ∧
      (∀ i < 81, charAt oneBlankBoard.spots i = '.' →
        charAt (dfs oneBlankBoard).state.spots i ∈ digits) :=
  have hv : (dfs oneBlankBoard).valid = true :=
    dfs_complete oneBlankBoard (by decide) solvedBoard (by decide) (by decide)
  ⟨by decide, hv, C12_solution_keeps_clues oneBlankBoard (by decide) hv⟩

theorem dfs_eq_bad_of_not_valid (b : sudoku_t) (h : (dfs b).valid = false) : dfs b = bad := by
  by_cases hs : solution b = true
  · rw [dfs_of_solution hs] at h; cases h
  · by_cases h0 : (succ b).length = 0
    · exact dfs_of_no_succ hs h0
    · rw [dfs_of_succ hs h0] at h ⊢
      rcases firstValid_cases dfs (succ b) with ⟨hb, _⟩ | ⟨o, _, he, hv⟩
      · exact hb
      · rw [he, hv] at h; cases h

/-- C13. On a board of 81 cells, `dfs` returns `valid = false` exactly when
the spots it returns are the empty string: a failure returns the empty
string, whether `succ` is empty or every successor fails, and a success
returns a non-empty string. -/
theorem C13_failure_sentinel (b : sudoku_t) (hlen : b.spots.length = 81) :
    ((dfs b).valid = false → (dfs b).state.spots = []) ∧
      ((dfs b).valid = true → (dfs b).state.spots ≠ []) ∧
      ((dfs b).valid = false ↔ (dfs b).state.spots = []) ∧
      (¬ solution b = true → succ b = [] → dfs b = bad) ∧
      (¬ solution b = true → (∀ o ∈ succ b, (dfs o).valid = false) → dfs b = bad) := by
  have h1 : (dfs b).valid = false → (dfs b).state.spots = [] := by
    intro h; rw [dfs_eq_bad_of_not_valid b h]; rfl
  have h2 : (dfs b).valid = true → (dfs b).state.spots ≠ [] := by
    intro h e
    have hl := (dfs_sound b h).2.1
    rw [e, hlen] at hl
    cases hl
  refine ⟨h1, h2, ⟨h1, fun e => ?_⟩, fun hs h0 => ?_, fun hs hall => ?_⟩
  · by_contra hv
    exact h2 (by simpa using hv) e
  · exact dfs_of_no_succ hs (by rw [h0]; rfl)
  · apply dfs_eq_bad_of_not_valid
    by_cases h0 : (succ b).length = 0
    · rw [dfs_of_no_succ hs h0]; rfl
    · rw [dfs_of_succ hs h0]
      rcases firstValid_cases dfs (succ b) with ⟨hb, _⟩ | ⟨o, ho, _, hv⟩
      · rw [hb]; rfl
      · rw [hall o ho] at hv; cases hv

set_option maxRecDepth 100000 in
theorem C13_failure_sentinel_witness :
    rowConflictBoard.spots.length = 81 ∧
      ((dfs rowConflictBoard).valid = false ↔ (dfs rowConflictBoard).state.spots = []) ∧
      dfs rowConflictBoard = bad :=
  have h := C13_failure_sentinel rowConflictBoard (by decide)
  ⟨by decide, h.2.2.1, h.2.2.2.1 (by decide) (by decide)⟩

/-- C14. On a board of 81 cells without `'.'`, `succ` returns the empty
sequence, whether the board is valid or not. -/
theorem C14_succ_no_blank (b : sudoku_t) (hlen : b.spots.length = 81)
    (hfull : '.' ∉ b.spots) : succ b = [] := by
  have hb : hasBlank b.spots = false := by
    rw [← Bool.not_eq_true, hasBlank_iff]; exact hfull
  rw [succ_eq, if_pos (findBlank_of_not_hasBlank _ _ hb)]

set_option maxRecDepth 100000 in
theorem C14_succ_no_blank_witness :
    fullInvalidBoard.spots.length = 81 ∧ '.' ∉ fullInvalidBoard.spots ∧
      valid fullInvalidBoard = false ∧ succ fullInvalidBoard = [] ∧
      solvedBoard.spots.length = 81 ∧ '.' ∉ solvedBoard.spots ∧
      valid solvedBoard = true ∧ succ solvedBoard = [] :=
  ⟨by decide, by decide, by decide, C14_succ_no_blank fullInvalidBoard (by decide) (by decide),
    by decide, by decide, by decide, C14_succ_no_blank solvedBoard (by decide) (by decide)⟩

theorem firstValid_all_false {α : Type} (f : α → state_t sudoku_t) (l : List α)
    (h : ∀ o ∈ l, (f o).valid = false) : firstValid f l = bad := by
  rcases firstValid_cases f l with ⟨hb, _⟩ | ⟨o, ho, _, hv⟩
  · exact hb
  · rw [h o ho] at hv; cases hv

theorem firstValid_append {α : Type} (f : α → state_t sudoku_t) (pre post : List α) (s : α)
    (hpre : ∀ o ∈ pre, (f o).valid = false) (hs : (f s).valid = true) :
    firstValid f (pre ++ s :: post) = f s := by
  induction pre with
  | nil => simp [firstValid, hs]
  | cons x xs ih =>
    have hx := hpre x (List.mem_cons_self _ _)
    simp only [List.cons_append, firstValid, hx]
    exact ih (fun o ho => hpre o (List.mem_cons_of_mem _ ho))

theorem firstValid_find {α : Type} (f : α → state_t sudoku_t) (l : List α) :
    firstValid f l = ((l.find? (fun o => (f o).valid)).map f).getD bad := by
  induction l with
  | nil => rfl
  | cons x xs ih =>
    by_cases hx : (f x).valid = true
    · simp [firstValid, List.find?_cons, hx]
    · have hx2 : (f x).valid = false := by simpa using hx
      simp only [firstValid, List.find?_cons, hx2]
      exact ih

/-- C15. On a board of 81 cells that is not a solution, `dfs` returns the
result of `dfs` on the first board of `succ` whose result has `valid` set:
the boards before it have failed, the boards after it play no part (any
other boards in their place give the same result), and when no board of
`succ` succeeds, or `succ` is empty, `dfs` returns `valid = false`. -/
theorem C15_first_success (b : sudoku_t) (hlen : b.spots.length = 81)
    (hs : solution b = false) :
    (∀ pre s post, succ b = pre ++ s :: post → (∀ o ∈ pre, (dfs o).valid = false) →
      (dfs s).valid = true →
      dfs b = dfs s ∧ ∀ post2, dfsBody (fun _ => pre ++ s :: post2) dfs b = dfs s) ∧
    ((∀ o ∈ succ b, (dfs o).valid = false) → dfs b = bad ∧ (dfs b).valid = false) ∧
    (succ b = [] → (dfs b).valid = false) ∧
    dfs b = (((succ b).find? (fun o => (dfs o).valid)).map dfs).getD bad := by
  have hns : ¬ solution b = true := by rw [hs]; simp
  have hfalse : (∀ o ∈ succ b, (dfs o).valid = false) → dfs b = bad := by
    intro hall
    by_cases h0 : (succ b).length = 0
    · exact dfs_of_no_succ hns h0
    · rw [dfs_of_succ hns h0]; exact firstValid_all_false dfs _ hall
  refine ⟨fun pre s post hsucc hpre hv => ⟨?_, fun post2 => ?_⟩,
    fun hall => ⟨hfalse hall, by rw [hfalse hall]; rfl⟩, fun h0 => ?_, ?_⟩
  · rw [dfs_of_succ hns (by rw [hsucc]; simp), hsucc]
    exact firstValid_append dfs pre post s hpre hv
  · unfold dfsBody
    rw [if_neg hns]
    simp only [List.length_append, List.length_cons]
    rw [if_neg (by omega)]
    exact firstValid_append dfs pre post2 s hpre hv
  · rw [hfalse (by rw [h0]; simp)]; rfl
  · by_cases h0 : (succ b).length = 0
    · rw [dfs_of_no_succ hns h0, List.length_eq_zero.1 h0]; rfl
    · rw [dfs_of_succ hns h0]; exact firstValid_find dfs _

set_option maxRecDepth 100000 in
theorem C15_first_success_witness :
    oneBlankBoard.spots.length = 81 ∧ solution oneBlankBoard = false ∧
      succ oneBlankBoard = [] ++ solvedBoard :: [] ∧ (dfs solvedBoard).valid = true ∧
      dfs oneBlankBoard = dfs solvedBoard :=
  have hv : (dfs solvedBoard).valid = true := by
    rw [dfs_of_solution (by decide)]
  have hsucc : succ oneBlankBoard = [] ++ solvedBoard :: [] := by decide
  ⟨by decide, by decide, hsucc, hv,
    ((C15_first_success oneBlankBoard (by decide) (by decide)).1 [] solvedBoard [] hsucc
      (by simp) hv).1⟩

theorem firstValid_sorted (f : sudoku_t → state_t sudoku_t) (g : Nat → sudoku_t)
    (q : sudoku_t → Bool) (L : List Nat) (hL : L.Pairwise (· < ·))
    (hv : (firstValid f ((L.map g).filter q)).valid = true) :
    ∃ i ∈ L, q (g i) = true ∧ (f (g i)).valid = true ∧
      firstValid f ((L.map g).filter q) = f (g i) ∧
      ∀ j ∈ L, q (g j) = true → (f (g j)).valid = true → i ≤ j := by
  induction L with
  | nil => simp [firstValid, bad_valid] at hv
  | cons x xs ih =>
    have hp := List.pairwise_cons.1 hL
    by_cases hq : q (g x) = true
    · have hstep : ((x :: xs).map g).filter q = g x :: (xs.map g).filter q := by
        rw [List.map_cons, List.filter_cons, if_pos hq]
      by_cases hfx : (f (g x)).valid = true
      · refine ⟨x, List.mem_cons_self _ _, hq, hfx, ?_, fun j hj _ _ => ?_⟩
        · rw [hstep]; simp [firstValid, hfx]
        · rcases List.mem_cons.1 hj with rfl | hj
          · exact le_refl _
          · exact le_of_lt (hp.1 j hj)
      · have hrest : firstValid f (((x :: xs).map g).filter q)
            = firstValid f ((xs.map g).filter q) := by
          rw [hstep]; simp [firstValid, hfx]
        rw [hrest] at hv ⊢
        obtain ⟨i, hi, hqi, hfi, he, hmin⟩ := ih hp.2 hv
        refine ⟨i, List.mem_cons_of_mem _ hi, hqi, hfi, he, fun j hj hqj hfj => ?_⟩
        rcases List.mem_cons.1 hj with rfl | hj
        · exact absurd hfj hfx
        · exact hmin j hj hqj hfj
    · have hstep : ((x :: xs).map g).filter q = (xs.map g).filter q := by
        rw [List.map_cons, List.filter_cons, if_neg hq]
      rw [hstep] at hv ⊢
      obtain ⟨i, hi, hqi, hfi, he, hmin⟩ := ih hp.2 hv
      refine ⟨i, List.mem_cons_of_mem _ hi, hqi, hfi, he, fun j hj hqj hfj => ?_⟩
      rcases List.mem_cons.1 hj with rfl | hj
      · exact absurd hqj hq
      · exact hmin j hj hqj hfj

theorem digitChar_lt (i j : Nat) (hi : 1 ≤ i) (hij : i < j) (hj : j ≤ 9) :
    digitChar i < digitChar j := by
  interval_cases j <;> interval_cases i <;> decide

/-- The result of `dfs` comes first among the completions that are solutions. -/
theorem dfs_lex_min (b : sudoku_t) (hlen : b.spots.length ≤ 98) (t : sudoku_t)
    (hc : Completes b.spots t.spots) (hsol : solution t = true) :
    lexLe (dfs b).state.spots t.spots := by
  generalize hn : blanks b.spots = n
  induction n using Nat.strong_induction_on generalizing b with
  | _ n ih =>
    by_cases hs : solution b = true
    · rw [dfs_of_solution hs]
      left
      have hb := ((solution_iff b).1 hs).1
      apply ext_charAt hc.1.symm
      intro i hi
      exact ((hc.2 i hi).1 (charAt_ne_dot_of_not_hasBlank _ hb i)).symm
    · have hb := hasBlank_of_completes_ne hc hsol hs
      obtain ⟨k, hk, hklt, hdot, hkmin⟩ := findBlank_of_hasBlank b.spots 0 hb
      rw [Nat.zero_add] at hk
      have hvb : (dfs b).valid = true := dfs_complete b (by omega) t hc hsol
      have hrb := (dfs_sound b hvb).2
      have hse : succ b = ((List.range' 1 9).map (fill b k)).filter (fun s => valid s) := by
        rw [succ_eq, hk, if_neg (by omega)]
      have h0 : ¬ (succ b).length = 0 := by
        intro e
        rw [dfs_of_no_succ hs e, bad_valid] at hvb
        cases hvb
      have hd := dfs_of_succ hs h0
      rw [hse] at hd
      rw [hd] at hvb
      obtain ⟨i, hi, hqi, hfi, he, hmin⟩ :=
        firstValid_sorted dfs (fill b k) (fun s => valid s) (List.range' 1 9) (by decide) hvb
      rw [List.mem_range'_1] at hi
      obtain ⟨j, hj1, hj9, hj⟩ := (mem_digits_iff _).1 ((hc.2 k hklt).2 hdot)
      have hco : Completes (fill b k j).spots t.spots := fill_completes k j hklt hj1 hj9 hc hj
      have hvo : valid (fill b k j) = true :=
        valid_of_keeps hco.keeps ((solution_iff t).1 hsol).2
      have hlenj : (fill b k j).spots.length ≤ 98 := by simpa [fill] using hlen
      have hfj : (dfs (fill b k j)).valid = true :=
        dfs_complete (fill b k j) (by omega) t hco hsol
      have hij : i ≤ j := hmin j (by rw [List.mem_range'_1]; omega) hvo hfj
      rcases Nat.lt_or_ge i j with hlt | hge
      · right
        refine ⟨k, fun q hq => ?_, ?_⟩
        · have hqne := hkmin q hq
          rw [(hrb.2 q (by omega)).1 hqne, (hc.2 q (by omega)).1 hqne]
        · have hri := (dfs_sound (fill b k i) hfi).2
          have hik : charAt (fill b k i).spots k = digitChar i := by
            simp [fill, charAt_set, hklt]
          have hrk : charAt (dfs b).state.spots k = digitChar i := by
            rw [hd, he, (hri.2 k (by simpa [fill] using hklt)).1
              (by rw [hik]; exact digitChar_ne_dot i hi.1 (by omega)), hik]
          rw [hrk, hj]
          exact digitChar_lt i j hi.1 hlt hj9
      · have hij2 : i = j := by omega
        subst hij2
        rw [hd, he]
        have hbl : blanks (fill b k i).spots < n := by
          have := count_set_blank b.spots k (digitChar i) hklt hdot
            (digitChar_ne_dot i hj1 hj9)
          simp only [fill]
          omega
        exact ih _ hbl (fill b k i) hlenj hco rfl

/-- C16. On a board of 81 cells that has a completion satisfying `solution`,
`dfs` returns with `valid = true` a completion satisfying `solution` that
comes first, in the lexicographic order of the 81 cells in row-major order
with `'1' < '2' < .. < '9'`, among all such completions. -/
theorem C16_lex_smallest (b : sudoku_t) (hlen : b.spots.length = 81)
    (hex : ∃ t : List Char, Completes b.spots t ∧ solution ⟨t, b.next_spot⟩ = true) :
    (dfs b).valid = true ∧ Completes b.spots (dfs b).state.spots ∧
      solution (dfs b).state = true ∧ digits.Pairwise (· < ·) ∧
      ∀ t : List Char, Completes b.spots t → solution ⟨t, b.next_spot⟩ = true →
        lexLe (dfs b).state.spots t := by
  obtain ⟨t0, hc0, hs0⟩ := hex
  have hv : (dfs b).valid = true := dfs_complete b (by omega) ⟨t0, b.next_spot⟩ hc0 hs0
  refine ⟨hv, (dfs_sound b hv).2, (dfs_sound b hv).1, by decide, fun t hc hs => ?_⟩
  exact dfs_lex_min b (by omega) ⟨t, b.next_spot⟩ hc hs

set_option maxRecDepth 100000 in
theorem C16_lex_smallest_witness :
    oneBlankBoard.spots.length = 81 ∧
      (∃ t : List Char, Completes oneBlankBoard.spots t ∧
        solution ⟨t, oneBlankBoard.next_spot⟩ = true) ∧
      (dfs oneBlankBoard).valid = true ∧
      ∀ t : List Char, Completes oneBlankBoard.spots t →
        solution ⟨t, oneBlankBoard.next_spot⟩ = true →
        lexLe (dfs oneBlankBoard).state.spots t :=
  have hex : ∃ t : List Char, Completes oneBlankBoard.spots t ∧
      solution ⟨t, oneBlankBoard.next_spot⟩ = true :=
    ⟨solvedBoard.spots, by decide, by decide⟩
  have h := C16_lex_smallest oneBlankBoard (by decide) hex
  ⟨by decide, hex, h.1, h.2.2.2.2⟩

/-- C17. Filling a blank never repairs a board: on a board of 81 cells with
`'.'` at offset `p`, if the board with any character written at `p` is valid,
so is the board itself; an invalid board stays invalid under every filling
of its blanks. -/
theorem C17_valid_monotone (b : sudoku_t) (hlen : b.spots.length = 81) (p : Nat)
    (hp : charAt b.spots p = '.') (c : Char) :
    (valid (setCell b p c) = true → valid b = true) ∧
      (valid b = false → valid (setCell b p c) = false) ∧
      (valid b = false → ∀ s : sudoku_t, Keeps b.spots s.spots → valid s = false) := by
  have hk : Keeps b.spots (setCell b p c).spots := keeps_set b.spots p c hp
  refine ⟨fun h => valid_of_keeps hk h, fun h => ?_, fun h s hs => ?_⟩
  · by_contra hv
    rw [valid_of_keeps hk (by simpa using hv)] at h
    cases h
  · by_contra hv
    rw [valid_of_keeps hs (by simpa using hv)] at h
    cases h

set_option maxRecDepth 100000 in
theorem C17_valid_monotone_witness :
    rowConflictBoard.spots.length = 81 ∧ charAt rowConflictBoard.spots 2 = '.' ∧
      valid rowConflictBoard = false ∧ valid (setCell rowConflictBoard 2 '1') = false :=
  ⟨by decide, by decide, by decide,
    (C17_valid_monotone rowConflictBoard (by decide) 2 (by decide) '1').2.1 (by decide)⟩

theorem cells_eq_readAt (spots : List Char) (step n current : Nat) :
    cells spots step n current = readAt spots (cellsReads step n current) := by
  induction n generalizing current with
  | zero => rfl
  | succ n ih => simp only [cells, cellsReads, readAt, List.map_cons, ih]

theorem blockCells_eq_readAt (spots : List Char) (n current : Nat) :
    blockCells spots n current = readAt spots (blockCellsReads n current) := by
  induction n generalizing current with
  | zero => rfl
  | succ n ih => simp only [blockCells, blockCellsReads, readAt, List.map_cons, ih]

set_option maxRecDepth 100000 in
theorem validReads_bound : (∀ i ∈ validReads, i ≤ 80) ∧ 80 ∈ validReads := by decide

theorem readAt_congr {s t : List Char} (offs : List Nat)
    (h : ∀ i ∈ offs, charAt s i = charAt t i) : readAt s offs = readAt t offs :=
  List.map_congr_left h

theorem valid_congr_below (s b : sudoku_t) (h : ∀ i < 81, charAt s.spots i = charAt b.spots i) :
    valid s = valid b := by
  rw [Bool.eq_iff_iff, valid_iff_groups, valid_iff_groups]
  have key : ∀ offs ∈ groups, readAt s.spots offs = readAt b.spots offs :=
    fun offs ho => readAt_congr offs (fun i hi => h i ((groups_shape offs ho).2 i hi))
  constructor
  · intro hs offs ho d hd
    rw [← key offs ho]; exact hs offs ho d hd
  · intro hb offs ho d hd
    rw [key offs ho]; exact hb offs ho d hd

theorem hasBlank_eq_any (l : List Char) :
    hasBlank l = (List.range l.length).any (fun i => decide (charAt l i = '.')) := by
  rw [Bool.eq_iff_iff, hasBlank_iff, List.any_eq_true]
  constructor
  · intro h
    obtain ⟨n, hn, hget⟩ := List.mem_iff_getElem.1 h
    refine ⟨n, List.mem_range.2 hn, ?_⟩
    have : charAt l n = '.' := by
      unfold charAt; rw [List.getD_eq_getElem _ _ hn]; exact hget
    simpa using this
  · rintro ⟨n, hn, hc⟩
    have hc2 : charAt l n = '.' := by simpa using hc
    rw [← hc2]
    exact charAt_mem l n (List.mem_range.1 hn)

/-- C18. On a board of exactly 81 cells every offset that `valid` reads is in
`0..80` (80 is read) and holds a cell, so `valid` depends on the cells
`0..80` only; the loops of `solution` and `succ` read the offsets below 81;
the offset that `succ` writes is a blank below 81; and no blank is at offset
99, so `blank = 99` holds exactly when there is no blank. -/
theorem C18_in_bounds (b : sudoku_t) (hlen : b.spots.length = 81) :
    (∀ step n current,
      cells b.spots step n current = readAt b.spots (cellsReads step n current)) ∧
    (∀ n current, blockCells b.spots n current = readAt b.spots (blockCellsReads n current)) ∧
    (∀ i ∈ validReads, i ≤ 80 ∧ i < b.spots.length ∧ b.spots[i]? = some (charAt b.spots i)) ∧
    80 ∈ validReads ∧
    (∀ s : sudoku_t, (∀ i < 81, charAt s.spots i = charAt b.spots i) → valid s = valid b) ∧
    hasBlank b.spots = (List.range 81).any (fun i => decide (charAt b.spots i = '.')) ∧
    (∀ p, charAt b.spots p = '.' → p ≤ 80 ∧ p ≠ 99) ∧
    (findBlank b.spots 0 = 99 ↔ '.' ∉ b.spots) ∧
    (findBlank b.spots 0 ≠ 99 →
      findBlank b.spots 0 ≤ 80 ∧ charAt b.spots (findBlank b.spots 0) = '.') := by
  have hdotlt : ∀ p, charAt b.spots p = '.' → p ≤ 80 ∧ p ≠ 99 := by
    intro p hp
    have := charAt_eq_dot_lt hp
    omega
  have hfound : hasBlank b.spots = true →
      findBlank b.spots 0 ≤ 80 ∧ charAt b.spots (findBlank b.spots 0) = '.' := by
    intro hb
    obtain ⟨k, hk, hklt, hdot, _⟩ := findBlank_of_hasBlank b.spots 0 hb
    rw [Nat.zero_add] at hk
    rw [hk]
    exact ⟨by omega, hdot⟩
  refine ⟨cells_eq_readAt b.spots, blockCells_eq_readAt b.spots, fun i hi => ?_,
    validReads_bound.2, fun s hs => valid_congr_below s b hs, ?_, hdotlt, ?_, fun h99 => ?_⟩
  · have h80 := validReads_bound.1 i hi
    have hlt : i < b.spots.length := by omega
    refine ⟨h80, hlt, ?_⟩
    unfold charAt
    rw [List.getD_eq_getElem _ _ hlt, List.getElem?_eq_getElem hlt]
  · rw [hasBlank_eq_any, hlen]
  · rw [← hasBlank_iff]
    constructor
    · intro h99 hb
      have := (hfound hb).1
      omega
    · intro hb
      exact findBlank_of_not_hasBlank _ _ (by simpa using hb)
  · apply hfound
    by_contra hb
    exact h99 (findBlank_of_not_hasBlank _ _ (by simpa using hb))

set_option maxRecDepth 100000 in
theorem C18_in_bounds_witness :
    oneBlankBoard.spots.length = 81 ∧
      (∀ i ∈ validReads, i ≤ 80 ∧ i < oneBlankBoard.spots.length ∧
        oneBlankBoard.spots[i]? = some (charAt oneBlankBoard.spots i)) ∧
      findBlank oneBlankBoard.spots 0 = 80 :=
  ⟨by decide, (C18_in_bounds oneBlankBoard (by decide)).2.2.1, by decide⟩

theorem count_readAt_eq_zero (spots : List Char) (hlen : spots.length = 81)
    (hno : ∀ c ∈ spots, c ∉ digits) (offs : List Nat) (ho : offs ∈ groups) (d : Char)
    (hd : d ∈ digits) : (readAt spots offs).count d = 0 := by
  rw [List.count_eq_zero]
  intro hmem
  obtain ⟨i, hi, rfl⟩ := List.mem_map.1 hmem
  exact hno _ (charAt_mem spots i (by rw [hlen]; exact (groups_shape offs ho).2 i hi)) hd

/-- C19. A board of 81 characters none of which is `'.'` or a digit
`'1'..'9'` passes `valid` and `solution`, and `dfs` returns it unchanged with
`valid = true`, although no row, column or block of it holds any digit. -/
theorem C19_outside_alphabet (b : sudoku_t) (hlen : b.spots.length = 81)
    (hno : ∀ c ∈ b.spots, c ≠ '.' ∧ c ∉ digits) :
    valid b = true ∧ solution b = true ∧ dfs b = { state := b, valid := true } ∧
      (dfs b).valid = true ∧ (dfs b).state.spots = b.spots ∧
      ∀ offs ∈ groups, ¬ eachOnce b.spots offs := by
  have hcount := count_readAt_eq_zero b.spots hlen (fun c hc => (hno c hc).2)
  have hv : valid b = true := by
    rw [valid_iff_groups]
    intro offs ho d hd
    rw [hcount offs ho d hd]
    exact Nat.zero_le _
  have hb : hasBlank b.spots = false := by
    rw [← Bool.not_eq_true, hasBlank_iff]
    exact fun h => (hno _ h).1 rfl
  have hs : solution b = true := (solution_iff b).2 ⟨hb, hv⟩
  have hd := dfs_of_solution hs
  refine ⟨hv, hs, hd, by rw [hd], by rw [hd], fun offs ho h => ?_⟩
  have h1 := h '1' (by decide)
  rw [hcount offs ho '1' (by decide)] at h1
  cases h1

set_option maxRecDepth 100000 in
theorem C19_outside_alphabet_witness :
    zeroBoard.spots.length = 81 ∧ (∀ c ∈ zeroBoard.spots, c ≠ '.' ∧ c ∉ digits) ∧
      valid zeroBoard = true ∧ solution zeroBoard = true ∧
      dfs zeroBoard = { state := zeroBoard, valid := true } :=
  have h := C19_outside_alphabet zeroBoard (by decide) (by decide)
  ⟨by decide, by decide, h.1, h.2.1, h.2.2.1⟩

theorem exists_two_of_count (a : List Char) (d : Char) (h : 2 ≤ a.count d) :
    ∃ i j : Nat, i < j ∧ a[i]? = some d ∧ a[j]? = some d := by
  induction a with
  | nil => simp at h
  | cons x xs ih =>
    by_cases hx : x = d
    · subst hx
      rw [List.count_cons_self] at h
      have hmem : x ∈ xs := List.count_pos_iff.1 (by omega)
      obtain ⟨n, hn⟩ := List.mem_iff_getElem?.1 hmem
      exact ⟨0, n + 1, by omega, by simp, by simpa using hn⟩
    · have hc : (x :: xs).count d = xs.count d := by simp [List.count_cons, hx]
      rw [hc] at h
      obtain ⟨i, j, hij, hi, hj⟩ := ih h
      exact ⟨i + 1, j + 1, by omega, by simpa using hi, by simpa using hj⟩

/-- C20. For every string `a`, `hasDupes a` is true exactly when some digit
`'1'..'9'` sits at two different offsets of `a`, that is, when not every
digit has count at most 1; `'.'` and the characters outside `'1'..'9'` never
count: a string without digits gives false, and removing every non-digit
from `a` does not change the result. -/
theorem C20_hasDupes_spec (a : List Char) :
    (hasDupes a = true ↔
      ∃ d ∈ digits, ∃ i j : Nat, i ≠ j ∧ a[i]? = some d ∧ a[j]? = some d) ∧
    (hasDupes a = true ↔ ¬ ∀ d ∈ digits, a.count d ≤ 1) ∧
    ((∀ c ∈ a, c ∉ digits) → hasDupes a = false) ∧
    hasDupes (a.filter (fun c => decide (c ∈ digits))) = hasDupes a := by
  refine ⟨?_, ?_, ?_, ?_⟩
  · rw [hasDupes_iff]
    constructor
    · rintro ⟨d, hd, h2⟩
      obtain ⟨i, j, hij, hi, hj⟩ := exists_two_of_count a d h2
      exact ⟨d, hd, i, j, by omega, hi, hj⟩
    · rintro ⟨d, hd, i, j, hij, hi, hj⟩
      refine ⟨d, hd, ?_⟩
      rcases Nat.lt_or_gt_of_ne hij with h | h
      · exact two_le_count a d i j h hi hj
      · exact two_le_count a d j i h hj hi
  · rw [← hasDupes_eq_false_iff]
    simp
  · intro hno
    rw [hasDupes_eq_false_iff]
    intro d hd
    rw [List.count_eq_zero.2 (fun h => hno d h hd)]
    exact Nat.zero_le _
  · rw [Bool.eq_iff_iff, hasDupes_iff, hasDupes_iff]
    constructor
    · rintro ⟨d, hd, h2⟩
      exact ⟨d, hd, by rwa [List.count_filter (by simpa using hd)] at h2⟩
    · rintro ⟨d, hd, h2⟩
      exact ⟨d, hd, by rwa [List.count_filter (by simpa using hd)]⟩

end Sudoku
